import Mathlib

set_option maxRecDepth 100000
set_option maxHeartbeats 1000000

/-!
Shallow embedding of the pygfssss repository (files `pyssss/GF256elt.py` and
`pyssss/PySSSS.py`), together with models of the polynomial and interpolator
classes that the package imports, and proofs of the specification claims.
-/

namespace PyGF

/-! ## GF256elt.py: table generation -/

/-- The body of the table-building loop of `generate_pplogexp_tables`
(GF256elt.py lines 114-118): double a byte and reduce by the prime
polynomial on overflow. -/
def dbl (pp x : Nat) : Nat :=
  (if 256 ≤ x * 2 then x * 2 ^^^ pp else x * 2) &&& 0xff

/-- One iteration (index `i`) of the loop of `generate_pplogexp_tables`,
acting on the pair (exptable, logtable). -/
def ppStep (pp : Nat) (t : List Nat × List Nat) (i : Nat) : List Nat × List Nat :=
  let e := dbl pp (t.1.getD (i - 1) 0)
  (t.1.set i e, t.2.set e i)

/-- `GF256elt.generate_pplogexp_tables` (GF256elt.py lines 100-119): builds
the pair (exptable, logtable) for prime polynomial `pp`.  The Python
initialisation `logtable[0] = (1 - gf_order) & 0xff` computes
`(-255) & 0xff = 1`, rendered here as a Euclidean remainder. -/
def generate_pplogexp_tables (pp : Nat) : List Nat × List Nat :=
  let expt := (List.replicate 256 0).set 0 1
  let logt := (List.replicate 256 0).set 0 (((1 : Int) - 256).emod 256).toNat
  (List.range 255).foldl (fun t j => ppStep pp t (j + 1)) (expt, logt)

/-- One iteration of the loop of `GF256elt.generate_logexp_tables`
(GF256elt.py lines 137-149), carrying ((exptable, logtable), exp). -/
def rijStep (t : (List Nat × List Nat) × Nat) (exponent : Nat) : (List Nat × List Nat) × Nat :=
  let e := t.2 &&& 0xff
  let expt := t.1.1.set exponent e
  let d := e &&& 0x80
  let e2 := e <<< 1
  let e2 := if d = 0x80 then e2 ^^^ 0x1b else e2
  let e2 := e2 ^^^ e
  let logt := t.1.2.set e exponent
  ((expt, logt), e2)

/-- `GF256elt.generate_logexp_tables` (GF256elt.py lines 121-152): the
Rijndael generator-3 tables, with `exptable[255] = exptable[0]` and
`logtable[0] = 0` patched at the end. -/
def generate_logexp_tables : List Nat × List Nat :=
  let r := (List.range 255).foldl rijStep ((List.replicate 256 0, List.replicate 256 0), 1)
  (r.1.1.set 255 (r.1.1.getD 0 0), r.1.2.set 0 0)

/-- The tables built at module load time: `GF256elt.generate_pplogexp_tables(0x11d)`
(GF256elt.py line 175). -/
def GFtables : List Nat × List Nat := generate_pplogexp_tables 0x11d

/-- Lookup in the module exptable. -/
def expT (i : Nat) : Nat := GFtables.1.getD i 0

/-- Lookup in the module logtable. -/
def logT (v : Nat) : Nat := GFtables.2.getD v 0

/-! Literal copies of the two table pairs, verified against the generators
once, so that later finite checks run on list literals. -/

def exptLit : List Nat := [1, 2, 4, 8, 16, 32, 64, 128, 29, 58, 116, 232, 205, 135, 19, 38, 76, 152, 45, 90, 180, 117, 234, 201, 143, 3, 6, 12, 24, 48, 96, 192, 157, 39, 78, 156, 37, 74, 148, 53, 106, 212, 181, 119, 238, 193, 159, 35, 70, 140, 5, 10, 20, 40, 80, 160, 93, 186, 105, 210, 185, 111, 222, 161, 95, 190, 97, 194, 153, 47, 94, 188, 101, 202, 137, 15, 30, 60, 120, 240, 253, 231, 211, 187, 107, 214, 177, 127, 254, 225, 223, 163, 91, 182, 113, 226, 217, 175, 67, 134, 17, 34, 68, 136, 13, 26, 52, 104, 208, 189, 103, 206, 129, 31, 62, 124, 248, 237, 199, 147, 59, 118, 236, 197, 151, 51, 102, 204, 133, 23, 46, 92, 184, 109, 218, 169, 79, 158, 33, 66, 132, 21, 42, 84, 168, 77, 154, 41, 82, 164, 85, 170, 73, 146, 57, 114, 228, 213, 183, 115, 230, 209, 191, 99, 198, 145, 63, 126, 252, 229, 215, 179, 123, 246, 241, 255, 227, 219, 171, 75, 150, 49, 98, 196, 149, 55, 110, 220, 165, 87, 174, 65, 130, 25, 50, 100, 200, 141, 7, 14, 28, 56, 112, 224, 221, 167, 83, 166, 81, 162, 89, 178, 121, 242, 249, 239, 195, 155, 43, 86, 172, 69, 138, 9, 18, 36, 72, 144, 61, 122, 244, 245, 247, 243, 251, 235, 203, 139, 11, 22, 44, 88, 176, 125, 250, 233, 207, 131, 27, 54, 108, 216, 173, 71, 142, 1]

def logtLit : List Nat := [1, 255, 1, 25, 2, 50, 26, 198, 3, 223, 51, 238, 27, 104, 199, 75, 4, 100, 224, 14, 52, 141, 239, 129, 28, 193, 105, 248, 200, 8, 76, 113, 5, 138, 101, 47, 225, 36, 15, 33, 53, 147, 142, 218, 240, 18, 130, 69, 29, 181, 194, 125, 106, 39, 249, 185, 201, 154, 9, 120, 77, 228, 114, 166, 6, 191, 139, 98, 102, 221, 48, 253, 226, 152, 37, 179, 16, 145, 34, 136, 54, 208, 148, 206, 143, 150, 219, 189, 241, 210, 19, 92, 131, 56, 70, 64, 30, 66, 182, 163, 195, 72, 126, 110, 107, 58, 40, 84, 250, 133, 186, 61, 202, 94, 155, 159, 10, 21, 121, 43, 78, 212, 229, 172, 115, 243, 167, 87, 7, 112, 192, 247, 140, 128, 99, 13, 103, 74, 222, 237, 49, 197, 254, 24, 227, 165, 153, 119, 38, 184, 180, 124, 17, 68, 146, 217, 35, 32, 137, 46, 55, 63, 209, 91, 149, 188, 207, 205, 144, 135, 151, 178, 220, 252, 190, 97, 242, 86, 211, 171, 20, 42, 93, 158, 132, 60, 57, 83, 71, 109, 65, 162, 31, 45, 67, 216, 183, 123, 164, 118, 196, 23, 73, 236, 127, 12, 111, 246, 108, 161, 59, 82, 41, 157, 85, 170, 251, 96, 134, 177, 187, 204, 62, 90, 203, 89, 95, 176, 156, 169, 160, 81, 11, 245, 22, 235, 122, 117, 44, 215, 79, 174, 213, 233, 230, 231, 173, 232, 116, 214, 244, 234, 168, 80, 88, 175]

def rijExptLit : List Nat := [1, 3, 5, 15, 17, 51, 85, 255, 26, 46, 114, 150, 161, 248, 19, 53, 95, 225, 56, 72, 216, 115, 149, 164, 247, 2, 6, 10, 30, 34, 102, 170, 229, 52, 92, 228, 55, 89, 235, 38, 106, 190, 217, 112, 144, 171, 230, 49, 83, 245, 4, 12, 20, 60, 68, 204, 79, 209, 104, 184, 211, 110, 178, 205, 76, 212, 103, 169, 224, 59, 77, 215, 98, 166, 241, 8, 24, 40, 120, 136, 131, 158, 185, 208, 107, 189, 220, 127, 129, 152, 179, 206, 73, 219, 118, 154, 181, 196, 87, 249, 16, 48, 80, 240, 11, 29, 39, 105, 187, 214, 97, 163, 254, 25, 43, 125, 135, 146, 173, 236, 47, 113, 147, 174, 233, 32, 96, 160, 251, 22, 58, 78, 210, 109, 183, 194, 93, 231, 50, 86, 250, 21, 63, 65, 195, 94, 226, 61, 71, 201, 64, 192, 91, 237, 44, 116, 156, 191, 218, 117, 159, 186, 213, 100, 172, 239, 42, 126, 130, 157, 188, 223, 122, 142, 137, 128, 155, 182, 193, 88, 232, 35, 101, 175, 234, 37, 111, 177, 200, 67, 197, 84, 252, 31, 33, 99, 165, 244, 7, 9, 27, 45, 119, 153, 176, 203, 70, 202, 69, 207, 74, 222, 121, 139, 134, 145, 168, 227, 62, 66, 198, 81, 243, 14, 18, 54, 90, 238, 41, 123, 141, 140, 143, 138, 133, 148, 167, 242, 13, 23, 57, 75, 221, 124, 132, 151, 162, 253, 28, 36, 108, 180, 199, 82, 246, 1]

def rijLogtLit : List Nat := [0, 0, 25, 1, 50, 2, 26, 198, 75, 199, 27, 104, 51, 238, 223, 3, 100, 4, 224, 14, 52, 141, 129, 239, 76, 113, 8, 200, 248, 105, 28, 193, 125, 194, 29, 181, 249, 185, 39, 106, 77, 228, 166, 114, 154, 201, 9, 120, 101, 47, 138, 5, 33, 15, 225, 36, 18, 240, 130, 69, 53, 147, 218, 142, 150, 143, 219, 189, 54, 208, 206, 148, 19, 92, 210, 241, 64, 70, 131, 56, 102, 221, 253, 48, 191, 6, 139, 98, 179, 37, 226, 152, 34, 136, 145, 16, 126, 110, 72, 195, 163, 182, 30, 66, 58, 107, 40, 84, 250, 133, 61, 186, 43, 121, 10, 21, 155, 159, 94, 202, 78, 212, 172, 229, 243, 115, 167, 87, 175, 88, 168, 80, 244, 234, 214, 116, 79, 174, 233, 213, 231, 230, 173, 232, 44, 215, 117, 122, 235, 22, 11, 245, 89, 203, 95, 176, 156, 169, 81, 160, 127, 12, 246, 111, 23, 196, 73, 236, 216, 67, 31, 45, 164, 118, 123, 183, 204, 187, 62, 90, 251, 96, 177, 134, 59, 82, 161, 108, 170, 85, 41, 157, 151, 178, 135, 144, 97, 190, 220, 252, 188, 149, 207, 205, 55, 63, 91, 209, 83, 57, 132, 60, 65, 162, 109, 71, 20, 42, 158, 93, 86, 242, 211, 171, 68, 17, 146, 217, 35, 32, 46, 137, 180, 124, 184, 38, 119, 153, 227, 165, 103, 74, 237, 222, 197, 49, 254, 24, 13, 99, 140, 128, 192, 247, 112, 7]

theorem GFtables_eq_lit : GFtables = (exptLit, logtLit) := by decide

theorem rijTables_eq_lit : generate_logexp_tables = (rijExptLit, rijLogtLit) := by decide

theorem expT_eq (i : Nat) : expT i = exptLit.getD i 0 := by
  rw [expT, GFtables_eq_lit]

theorem logT_eq (v : Nat) : logT v = logtLit.getD v 0 := by
  rw [logT, GFtables_eq_lit]

/-! ## Finite facts about the module tables, checked on the literals -/

theorem exptLit_length : exptLit.length = 256 := by decide

theorem expT_lt_lit : ∀ i < 256, exptLit.getD i 0 < 256 ∧ 1 ≤ exptLit.getD i 0 := by decide

/-- Every exptable entry is a byte. -/
theorem expT_lt (i : Nat) : expT i < 256 := by
  rw [expT_eq]
  by_cases h : i < 256
  · exact (expT_lt_lit i h).1
  · rw [List.getD_eq_default]
    · exact Nat.zero_lt_succ _
    · rw [exptLit_length]; omega

/-- Exptable entries at byte indices are nonzero. -/
theorem expT_pos {i : Nat} (h : i < 256) : 1 ≤ expT i := by
  rw [expT_eq]; exact (expT_lt_lit i h).2

theorem logT_bounds_lit : ∀ v < 256, 1 ≤ v → 1 ≤ logtLit.getD v 0 ∧ logtLit.getD v 0 ≤ 255 := by decide

/-- The logtable maps nonzero bytes into [1,255]. -/
theorem logT_bounds {v : Nat} (h1 : 1 ≤ v) (h2 : v < 256) : 1 ≤ logT v ∧ logT v ≤ 255 := by
  rw [logT_eq]; exact logT_bounds_lit v h2 h1

theorem expT_logT_lit : ∀ v < 256, 1 ≤ v → exptLit.getD (logtLit.getD v 0) 0 = v := by decide

/-- exp ∘ log is the identity on nonzero bytes. -/
theorem expT_logT {v : Nat} (h1 : 1 ≤ v) (h2 : v < 256) : expT (logT v) = v := by
  rw [expT_eq, logT_eq]; exact expT_logT_lit v h2 h1

theorem logT_expT_lit : ∀ i < 255, logtLit.getD (exptLit.getD i 0) 0 % 255 = i := by decide

/-- log ∘ exp is the identity modulo 255 on exponents below 255. -/
theorem logT_expT_mod {i : Nat} (h : i < 255) : logT (expT i) % 255 = i := by
  rw [expT_eq, logT_eq]; exact logT_expT_lit i h

theorem logT_expT_exact_lit : ∀ i < 255, 1 ≤ i → logtLit.getD (exptLit.getD i 0) 0 = i := by decide

/-- log ∘ exp is the identity on [1,254]. -/
theorem logT_expT_exact {i : Nat} (h1 : 1 ≤ i) (h : i < 255) : logT (expT i) = i := by
  rw [expT_eq, logT_eq]; exact logT_expT_exact_lit i h h1

theorem expT_zero : expT 0 = 1 := by rw [expT_eq]; decide

theorem expT_255 : expT 255 = 1 := by rw [expT_eq]; decide

theorem logT_one : logT 1 = 255 := by rw [logT_eq]; decide

theorem logT_zero_val : logT 0 = 1 := by rw [logT_eq]; decide

theorem dbl_expT_lit : ∀ j < 255, dbl 285 (exptLit.getD j 0) = exptLit.getD ((j + 1) % 255) 0 := by decide

/-- Each exptable entry is the reduced double of its predecessor, cyclically. -/
theorem dbl_expT {j : Nat} (h : j < 255) : dbl 285 (expT j) = expT ((j + 1) % 255) := by
  rw [expT_eq, expT_eq]; exact dbl_expT_lit j h

theorem dbl_zero : dbl 285 0 = 0 := by decide

/-- exp only depends on the exponent modulo 255, on the range [1,255]. -/
theorem expT_mod_255 {l : Nat} (h1 : 1 ≤ l) (h2 : l ≤ 255) : expT (l % 255) = expT l := by
  rcases Nat.lt_or_ge l 255 with h | h
  · rw [Nat.mod_eq_of_lt h]
  · have : l = 255 := by omega
    subst this
    rw [(by decide : 255 % 255 = 0), expT_zero, expT_255]

/-! ## Linearity of the doubling step over XOR -/

/-- Cancellation of a common XOR-term. -/
theorem xor_xor_cancel (x y p : Nat) : (x ^^^ p) ^^^ (y ^^^ p) = x ^^^ y :=
  Nat.eq_of_testBit_eq fun i => by
    simp only [Nat.testBit_xor]
    cases x.testBit i <;> cases y.testBit i <;> cases p.testBit i <;> decide

theorem mul_two_xor (b c : Nat) : (b ^^^ c) * 2 = b * 2 ^^^ c * 2 := by
  have h : ∀ x : Nat, x * 2 = x <<< 1 := fun x => by
    rw [Nat.shiftLeft_eq, pow_one]
  rw [h, h, h]
  refine Nat.eq_of_testBit_eq fun i => ?_
  simp only [Nat.testBit_shiftLeft, Nat.testBit_xor]
  cases (decide (i ≥ 1)) <;> simp

theorem testBit7_iff {x : Nat} (hx : x < 256) : x.testBit 7 = decide (128 ≤ x) := by
  rw [Nat.testBit_to_div_mod]
  simp only [decide_eq_decide]
  have h : (2 : Nat) ^ 7 = 128 := by norm_num
  rw [h]
  omega

/-- The doubling step is XOR-linear on bytes (the reduction mask fires
exactly when the top bit is set, and top bits XOR). -/
theorem dbl_xor {pp b c : Nat} (hb : b < 256) (hc : c < 256) :
    dbl pp (b ^^^ c) = dbl pp b ^^^ dbl pp c := by
  have hbc : b ^^^ c < 256 := Nat.xor_lt_two_pow (n := 8) hb hc
  have hcond : ∀ x : Nat, (256 ≤ x * 2) = (128 ≤ x) := fun x => propext (by omega)
  have hbit : (b ^^^ c).testBit 7 = ((b.testBit 7) ^^ (c.testBit 7)) := Nat.testBit_xor b c 7
  rw [testBit7_iff hb, testBit7_iff hc, testBit7_iff hbc] at hbit
  unfold dbl
  simp only [hcond]
  rcases Nat.lt_or_ge b 128 with hb7 | hb7 <;> rcases Nat.lt_or_ge c 128 with hc7 | hc7
  · have hx : ¬ (128 ≤ b ^^^ c) := by
      rw [decide_eq_false (by omega : ¬ (128 ≤ b)), decide_eq_false (by omega : ¬ (128 ≤ c))] at hbit
      simp only [Bool.xor_false] at hbit
      exact of_decide_eq_false hbit
    rw [if_neg hx, if_neg (by omega : ¬ (128 ≤ b)), if_neg (by omega : ¬ (128 ≤ c)),
      mul_two_xor, Nat.and_xor_distrib_right]
  · have hx : 128 ≤ b ^^^ c := by
      rw [decide_eq_false (by omega : ¬ (128 ≤ b)), decide_eq_true hc7] at hbit
      simp only [Bool.false_xor] at hbit
      exact of_decide_eq_true hbit
    rw [if_pos hx, if_neg (by omega : ¬ (128 ≤ b)), if_pos hc7, ← Nat.and_xor_distrib_right]
    congr 1
    rw [mul_two_xor, Nat.xor_assoc]
  · have hx : 128 ≤ b ^^^ c := by
      rw [decide_eq_true hb7, decide_eq_false (by omega : ¬ (128 ≤ c))] at hbit
      simp only [Bool.xor_false] at hbit
      exact of_decide_eq_true hbit
    rw [if_pos hx, if_pos hb7, if_neg (by omega : ¬ (128 ≤ c)), ← Nat.and_xor_distrib_right]
    congr 1
    rw [mul_two_xor, Nat.xor_assoc, Nat.xor_comm (c * 2) pp, ← Nat.xor_assoc]
  · have hx : ¬ (128 ≤ b ^^^ c) := by
      rw [decide_eq_true hb7, decide_eq_true hc7] at hbit
      simp only [Bool.xor_self] at hbit
      exact of_decide_eq_false hbit
    rw [if_neg hx, if_pos hb7, if_pos hc7, ← Nat.and_xor_distrib_right, xor_xor_cancel,
      mul_two_xor]

/-! ## GF256elt.py: the field element class -/

/-- A GF(256) element: `GF256elt.__init__` stores `value % 256`, so the byte
value is an invariant of the class. -/
structure GF256elt where
  val : Nat
  isLt : val < 256

theorem GF256elt.val_inj : ∀ {a b : GF256elt}, a.val = b.val → a = b
  | ⟨_, _⟩, ⟨_, _⟩, rfl => rfl

instance : DecidableEq GF256elt := fun a b =>
  if h : a.val = b.val then .isTrue (GF256elt.val_inj h)
  else .isFalse fun e => h (congrArg GF256elt.val e)

/-- The constructor `GF256elt(value)` (GF256elt.py line 29). -/
def GF256elt.ofNat (n : Nat) : GF256elt := ⟨n % 256, Nat.mod_lt _ (by omega)⟩

def GF256elt.zero : GF256elt := ⟨0, by omega⟩

def GF256elt.one : GF256elt := ⟨1, by omega⟩

/-- `GF256elt.__add__` (GF256elt.py lines 31-35): XOR of the byte values. -/
def GF256elt.add (a b : GF256elt) : GF256elt :=
  ⟨a.val ^^^ b.val, Nat.xor_lt_two_pow (n := 8) a.isLt b.isLt⟩

/-- `GF256elt.__sub__` (GF256elt.py lines 37-42) just calls `__add__`. -/
def GF256elt.sub (a b : GF256elt) : GF256elt := a.add b

/-- `GF256elt.__mul__` (GF256elt.py lines 44-56). -/
def GF256elt.mul (a b : GF256elt) : GF256elt :=
  if a.val = 0 ∨ b.val = 0 then ⟨0, by omega⟩
  else ⟨expT ((logT a.val + logT b.val) % 255), expT_lt _⟩

/-- The error outcomes of the fallible field operations.  The Python class
raises a bare `Exception` at each site; the spec names them. -/
inductive GFError where
  | divisionByZero
  | invalidOperand
  | invalidArgument
deriving DecidableEq

/-- The normalisation `if p < 0: p += 255` of `__truediv__`
(GF256elt.py lines 74-75); it never fires because the Python `%` on a
possibly negative difference is already a floor (= Euclidean) remainder. -/
def pNorm (p : Int) : Int := if p < 0 then p + 255 else p

/-- `GF256elt.__truediv__` (GF256elt.py lines 58-77). -/
def GF256elt.div (a b : GF256elt) : Except GFError GF256elt :=
  if b.val = 0 then .error .divisionByZero
  else if a.val = 0 then .ok ⟨0, by omega⟩
  else
    .ok ⟨expT (pNorm (((logT a.val : Int) - (logT b.val : Int)) % 255)).toNat, expT_lt _⟩

/-- `GF256elt.log` (GF256elt.py lines 79-86): the discrete logarithm,
failing on zero. -/
def GF256elt.dlog (a : GF256elt) : Except GFError Nat :=
  if a.val = 0 then .error .invalidOperand else .ok (logT a.val)

/-- Multiplicative-inverse helper used to build the `Field` instance; the
source computes quotients directly via `__truediv__`, and
`GF256elt.div_eq_mul_inv` below connects the two. -/
def GF256elt.inv (a : GF256elt) : GF256elt :=
  if a.val = 0 then GF256elt.zero else ⟨expT ((255 - logT a.val) % 255), expT_lt _⟩

instance : Zero GF256elt := ⟨GF256elt.zero⟩

instance : One GF256elt := ⟨GF256elt.one⟩

instance : Add GF256elt := ⟨GF256elt.add⟩

instance : Mul GF256elt := ⟨GF256elt.mul⟩

instance : Neg GF256elt := ⟨fun a => a⟩

instance : Inv GF256elt := ⟨GF256elt.inv⟩

namespace GF256elt

/-! ## Field axioms for the table-based arithmetic -/

theorem add_val (a b : GF256elt) : (a.add b).val = a.val ^^^ b.val := rfl

theorem mul_val_ne {a b : GF256elt} (ha : a.val ≠ 0) (hb : b.val ≠ 0) :
    (a.mul b).val = expT ((logT a.val + logT b.val) % 255) := by
  rw [mul, if_neg (by tauto)]

theorem mul_zero_left {a : GF256elt} (h : a.val = 0) (b : GF256elt) : a.mul b = zero :=
  val_inj (by rw [mul, if_pos (Or.inl h)]; rfl)

theorem mul_zero_right (a : GF256elt) {b : GF256elt} (h : b.val = 0) : a.mul b = zero :=
  val_inj (by rw [mul, if_pos (Or.inr h)]; rfl)

theorem mul_ne_zero_val {a b : GF256elt} (ha : a.val ≠ 0) (hb : b.val ≠ 0) :
    (a.mul b).val ≠ 0 := by
  rw [mul_val_ne ha hb]
  have := expT_pos (i := (logT a.val + logT b.val) % 255) (by omega)
  omega

theorem logT_val_bounds {a : GF256elt} (ha : a.val ≠ 0) :
    1 ≤ logT a.val ∧ logT a.val ≤ 255 :=
  logT_bounds (by omega) a.isLt

theorem gf_add_assoc (a b c : GF256elt) : (a.add b).add c = a.add (b.add c) :=
  val_inj (Nat.xor_assoc _ _ _)

theorem gf_add_comm (a b : GF256elt) : a.add b = b.add a :=
  val_inj (Nat.xor_comm _ _)

theorem gf_zero_add (a : GF256elt) : zero.add a = a :=
  val_inj (Nat.zero_xor _)

theorem gf_add_zero (a : GF256elt) : a.add zero = a :=
  val_inj (Nat.xor_zero _)

theorem gf_add_self (a : GF256elt) : a.add a = zero :=
  val_inj (Nat.xor_self _)

theorem gf_mul_comm (a b : GF256elt) : a.mul b = b.mul a := by
  by_cases ha : a.val = 0
  · rw [mul_zero_left ha, mul_zero_right b ha]
  by_cases hb : b.val = 0
  · rw [mul_zero_right a hb, mul_zero_left hb]
  apply val_inj
  rw [mul_val_ne ha hb, mul_val_ne hb ha, Nat.add_comm]

theorem gf_mul_assoc (a b c : GF256elt) : (a.mul b).mul c = a.mul (b.mul c) := by
  by_cases ha : a.val = 0
  · rw [mul_zero_left ha, mul_zero_left rfl, mul_zero_left ha]
  by_cases hb : b.val = 0
  · rw [mul_zero_right a hb, mul_zero_left rfl, mul_zero_left hb, mul_zero_right a rfl]
  by_cases hc : c.val = 0
  · rw [mul_zero_right _ hc, mul_zero_right b hc, mul_zero_right a rfl]
  apply val_inj
  rw [mul_val_ne (mul_ne_zero_val ha hb) hc, mul_val_ne ha hb,
    mul_val_ne ha (mul_ne_zero_val hb hc), mul_val_ne hb hc]
  have h1 : logT (expT ((logT a.val + logT b.val) % 255)) % 255
      = (logT a.val + logT b.val) % 255 := logT_expT_mod (by omega)
  have h2 : logT (expT ((logT b.val + logT c.val) % 255)) % 255
      = (logT b.val + logT c.val) % 255 := logT_expT_mod (by omega)
  congr 1
  omega

theorem gf_one_mul (b : GF256elt) : one.mul b = b := by
  by_cases hb : b.val = 0
  · rw [mul_zero_right _ hb]
    exact val_inj (show zero.val = b.val from hb.symm)
  apply val_inj
  have hone : one.val ≠ 0 := by decide
  rw [mul_val_ne hone hb, show (one.val : Nat) = 1 from rfl, logT_one]
  have hb1 := logT_val_bounds hb
  have h : (255 + logT b.val) % 255 = logT b.val % 255 := by omega
  rw [h, expT_mod_255 hb1.1 hb1.2, expT_logT (by omega) b.isLt]

theorem gf_mul_one (a : GF256elt) : a.mul one = a := by
  rw [gf_mul_comm]; exact gf_one_mul a

theorem dbl_lt (pp x : Nat) : dbl pp x < 256 := by
  have : dbl pp x ≤ 255 := Nat.and_le_right
  omega

theorem dbl_iter_lt {x : Nat} (h : x < 256) (k : Nat) : (dbl 285)^[k] x < 256 := by
  induction k with
  | zero => simpa using h
  | succ k ih =>
    rw [Function.iterate_succ_apply']
    exact dbl_lt _ _

theorem dbl_iter_zero (k : Nat) : (dbl 285)^[k] 0 = 0 := by
  induction k with
  | zero => rfl
  | succ k ih => rw [Function.iterate_succ_apply', ih, dbl_zero]

theorem dbl_iter_exp {x : Nat} (h1 : 1 ≤ x) (h2 : x < 256) (k : Nat) :
    (dbl 285)^[k] x = expT ((logT x + k) % 255) := by
  induction k with
  | zero =>
    have hb := logT_bounds h1 h2
    rw [Function.iterate_zero_apply, Nat.add_zero, expT_mod_255 hb.1 hb.2,
      expT_logT h1 h2]
  | succ k ih =>
    rw [Function.iterate_succ_apply', ih, dbl_expT (by omega)]
    congr 1
    omega

theorem dbl_iter_xor {b c : Nat} (hb : b < 256) (hc : c < 256) (k : Nat) :
    (dbl 285)^[k] (b ^^^ c) = (dbl 285)^[k] b ^^^ (dbl 285)^[k] c := by
  induction k with
  | zero => rfl
  | succ k ih =>
    rw [Function.iterate_succ_apply', Function.iterate_succ_apply',
      Function.iterate_succ_apply', ih, dbl_xor (dbl_iter_lt hb k) (dbl_iter_lt hc k)]

/-- Multiplication by a fixed nonzero element is iterated doubling. -/
theorem mul_as_iter {a : GF256elt} (ha : a.val ≠ 0) (x : GF256elt) :
    (a.mul x).val = (dbl 285)^[logT a.val] x.val := by
  by_cases hx : x.val = 0
  · rw [mul_zero_right a hx, hx, dbl_iter_zero]; rfl
  rw [mul_val_ne ha hx, dbl_iter_exp (by omega) x.isLt]
  congr 1
  omega

theorem gf_left_distrib (a b c : GF256elt) :
    a.mul (b.add c) = (a.mul b).add (a.mul c) := by
  by_cases ha : a.val = 0
  · rw [mul_zero_left ha, mul_zero_left ha, mul_zero_left ha, gf_add_zero]
  apply val_inj
  rw [add_val, mul_as_iter ha, mul_as_iter ha, mul_as_iter ha, add_val,
    dbl_iter_xor b.isLt c.isLt]

theorem gf_mul_inv_cancel {a : GF256elt} (ha : a.val ≠ 0) : a.mul a.inv = one := by
  have hb := logT_val_bounds ha
  have hinv : a.inv.val = expT ((255 - logT a.val) % 255) := by
    rw [inv, if_neg ha]
  have hinvne : a.inv.val ≠ 0 := by
    rw [hinv]
    have := expT_pos (i := (255 - logT a.val) % 255) (by omega)
    omega
  apply val_inj
  rw [mul_val_ne ha hinvne, hinv]
  have h1 : logT (expT ((255 - logT a.val) % 255)) % 255 = (255 - logT a.val) % 255 :=
    logT_expT_mod (by omega)
  have h2 : (logT a.val + logT (expT ((255 - logT a.val) % 255))) % 255 = 0 := by omega
  rw [h2, expT_zero]; rfl

end GF256elt

instance : Field GF256elt where
  add := (· + ·)
  add_assoc := GF256elt.gf_add_assoc
  zero := 0
  zero_add := GF256elt.gf_zero_add
  add_zero := GF256elt.gf_add_zero
  add_comm := GF256elt.gf_add_comm
  mul := (· * ·)
  mul_assoc := GF256elt.gf_mul_assoc
  one := 1
  one_mul := GF256elt.gf_one_mul
  mul_one := GF256elt.gf_mul_one
  left_distrib := GF256elt.gf_left_distrib
  right_distrib := fun a b c => by
    show (a.add b).mul c = (a.mul c).add (b.mul c)
    rw [GF256elt.gf_mul_comm, GF256elt.gf_left_distrib,
      GF256elt.gf_mul_comm c a, GF256elt.gf_mul_comm c b]
  zero_mul := fun a => GF256elt.mul_zero_left rfl a
  mul_zero := fun a => GF256elt.mul_zero_right a rfl
  mul_comm := GF256elt.gf_mul_comm
  neg := Neg.neg
  neg_add_cancel := GF256elt.gf_add_self
  inv := Inv.inv
  exists_pair_ne := ⟨0, 1, by decide⟩
  mul_inv_cancel := fun a ha =>
    GF256elt.gf_mul_inv_cancel fun h => ha (GF256elt.val_inj h)
  inv_zero := by decide
  nsmul := nsmulRec
  zsmul := zsmulRec
  nnqsmul := _
  qsmul := _

namespace GF256elt

/-! ## Bridges between the class operations and the `Field` notation -/

theorem add_def (a b : GF256elt) : a + b = a.add b := rfl

theorem mul_def (a b : GF256elt) : a * b = a.mul b := rfl

theorem zero_def : (0 : GF256elt) = zero := rfl

theorem one_def : (1 : GF256elt) = one := rfl

theorem inv_def (a : GF256elt) : a⁻¹ = a.inv := rfl

theorem neg_def (a : GF256elt) : -a = a := rfl

theorem sub_def (a b : GF256elt) : a - b = a + b := rfl

theorem sub_eq_py_sub (a b : GF256elt) : a - b = a.sub b := rfl

theorem val_zero : (0 : GF256elt).val = 0 := rfl

theorem val_one : (1 : GF256elt).val = 1 := rfl

theorem val_add (a b : GF256elt) : (a + b).val = a.val ^^^ b.val := rfl

theorem ne_zero_iff_val {a : GF256elt} : a ≠ 0 ↔ a.val ≠ 0 := by
  constructor
  · intro h hv
    exact h (val_inj hv)
  · intro h he
    exact h (congrArg val he)

/-- `__truediv__` against multiplication by the `Field` inverse. -/
theorem div_ok {a b : GF256elt} (hb : b.val ≠ 0) : a.div b = .ok (a * b⁻¹) := by
  have hbb := logT_val_bounds hb
  rw [div, if_neg hb]
  by_cases ha : a.val = 0
  · rw [if_pos ha, mul_def, inv_def, mul_zero_left ha]
    rfl
  · rw [if_neg ha, mul_def, inv_def]
    congr 1
    apply val_inj
    have hinvv : b.inv.val = expT ((255 - logT b.val) % 255) := by
      rw [inv, if_neg hb]
    have hinvne : b.inv.val ≠ 0 := by
      rw [hinvv]
      have := expT_pos (i := (255 - logT b.val) % 255) (by omega)
      omega
    have haa := logT_val_bounds ha
    have h1 : logT (expT ((255 - logT b.val) % 255)) % 255 = (255 - logT b.val) % 255 :=
      logT_expT_mod (by omega)
    have hp0 : (0 : Int) ≤ ((logT a.val : Int) - (logT b.val : Int)) % 255 :=
      Int.emod_nonneg _ (by norm_num)
    show expT (pNorm _).toNat = (a.mul b.inv).val
    rw [pNorm, if_neg (by omega), mul_val_ne ha hinvne, hinvv]
    congr 1
    omega

/-- `__truediv__` succeeds exactly on nonzero divisors. -/
theorem div_err_iff (a b : GF256elt) :
    a.div b = .error .divisionByZero ↔ b.val = 0 := by
  constructor
  · intro h
    by_contra hb
    rw [div_ok hb] at h
    cases h
  · intro hb
    rw [div, if_pos hb]

end GF256elt

/-! ## PGF256 and PGF256Interpolator, modelled from the spec

`PySSSS.py` imports `pyssss.PGF256` and `pyssss.PGF256Interpolator`; those
two files are not part of the sources, so they are modelled from the spec
(§3, §4.3, §4.4, §7). -/

/-- Modelled from the spec: the missing module `pyssss/PGF256.py` stores a
polynomial as its ordered coefficient list `[c0, c1, ..., cd]` (§3) and
evaluates by Horner's method, `result = result * x + c`, iterating from the
highest-degree coefficient down to `c0` (§4.3). -/
def hornerEval (coeffs : List GF256elt) (x : GF256elt) : GF256elt :=
  coeffs.foldr (fun c acc => acc * x + c) 0

/-- Modelled from the spec: `PGF256.f`, failing with an InvalidArgument
error on an empty coefficient list (§4.3, §7). -/
def polyEval (coeffs : List GF256elt) (x : GF256elt) : Except GFError GF256elt :=
  if coeffs.isEmpty then .error .invalidArgument else .ok (hornerEval coeffs x)

/-- Interpretation of a coefficient list as a Mathlib polynomial; a proof
device, not part of the code model. -/
noncomputable def toPoly (l : List GF256elt) : Polynomial GF256elt :=
  l.foldr (fun c p => Polynomial.C c + Polynomial.X * p) 0

theorem toPoly_nil : toPoly [] = 0 := rfl

theorem toPoly_cons (c : GF256elt) (cs : List GF256elt) :
    toPoly (c :: cs) = Polynomial.C c + Polynomial.X * toPoly cs := rfl

theorem hornerEval_cons (c : GF256elt) (cs : List GF256elt) (x : GF256elt) :
    hornerEval (c :: cs) x = hornerEval cs x * x + c := rfl

theorem hornerEval_eq_eval (coeffs : List GF256elt) (x : GF256elt) :
    hornerEval coeffs x = (toPoly coeffs).eval x := by
  induction coeffs with
  | nil => simp [hornerEval, toPoly_nil]
  | cons c cs ih =>
    rw [hornerEval_cons, ih, toPoly_cons]
    simp only [Polynomial.eval_add, Polynomial.eval_mul, Polynomial.eval_C, Polynomial.eval_X]
    ring

/-- Horner evaluation at zero returns the constant coefficient. -/
theorem hornerEval_at_zero (c : GF256elt) (cs : List GF256elt) :
    hornerEval (c :: cs) 0 = c := by
  rw [hornerEval_cons, mul_zero, zero_add]

theorem toPoly_degree_lt (coeffs : List GF256elt) :
    (toPoly coeffs).degree < (coeffs.length : ℕ) := by
  induction coeffs with
  | nil =>
    rw [toPoly_nil, Polynomial.degree_zero]
    exact_mod_cast WithBot.bot_lt_coe 0
  | cons c cs ih =>
    rw [toPoly_cons]
    refine lt_of_le_of_lt (Polynomial.degree_add_le _ _) (max_lt ?_ ?_)
    · refine lt_of_le_of_lt Polynomial.degree_C_le ?_
      rw [List.length_cons]
      exact_mod_cast Nat.cast_lt.mpr (Nat.succ_pos _)
    · refine lt_of_le_of_lt (Polynomial.degree_mul_le _ _) ?_
      rw [Polynomial.degree_X, List.length_cons]
      have h2 : ((cs.length + 1 : ℕ) : WithBot ℕ) = 1 + (cs.length : ℕ) := by
        push_cast
        ring
      rw [h2]
      exact WithBot.add_lt_add_left (by simp) ih

/-- Modelled from the spec: coefficientwise polynomial addition over the
field, used to accumulate the Lagrange terms (§4.4). -/
def padd : List GF256elt → List GF256elt → List GF256elt
  | [], q => q
  | p, [] => p
  | a :: p, b :: q => (a + b) :: padd p q

/-- Modelled from the spec: scaling of a coefficient list by a field
element (§4.4). -/
def pscale (c : GF256elt) (p : List GF256elt) : List GF256elt :=
  p.map (fun a => c * a)

/-- Modelled from the spec: multiplication of a coefficient list by the
linear factor (x − r); over GF(2^8) the negation −r is r itself. -/
def pmulLin (r : GF256elt) (p : List GF256elt) : List GF256elt :=
  padd (pscale r p) (0 :: p)

/-- Modelled from the spec: the numerator Π_{j≠i} (x − x_j) of a Lagrange
basis element, in coefficient form (§4.4). -/
def lagrangeNumer (others : List GF256elt) : List GF256elt :=
  others.foldr (fun xj acc => pmulLin xj acc) [1]

/-- Modelled from the spec: the denominator Π_{j≠i} (x_i − x_j) of a
Lagrange basis element (§4.4). -/
def lagrangeDenom (xi : GF256elt) (others : List GF256elt) : GF256elt :=
  others.foldr (fun xj acc => (xi - xj) * acc) 1

/-- Modelled from the spec: one summand y_i ⋅ Π_{j≠i} (x − x_j)/(x_i − x_j)
of the Lagrange formula; the field division surfaces DivisionByZero on
coincident nodes (§4.4, §7). -/
def lagrangeTerm (xi yi : GF256elt) (others : List GF256elt) :
    Except GFError (List GF256elt) := do
  let c ← yi.div (lagrangeDenom xi others)
  pure (pscale c (lagrangeNumer others))

/-- Modelled from the spec: recursion over the point list for
`PGF256Interpolator.interpolate`; `pre` carries the x-coordinates of the
points already processed. -/
def interpAux : List GF256elt → List (GF256elt × GF256elt) → Except GFError (List GF256elt)
  | _, [] => .ok []
  | pre, (x, y) :: rest => do
    let t ← lagrangeTerm x y (pre ++ rest.map Prod.fst)
    let s ← interpAux (pre ++ [x]) rest
    pure (padd t s)

/-- Modelled from the spec: `PGF256Interpolator.interpolate` (§4.4), the
missing module `pyssss/PGF256Interpolator.py`: builds the coefficient-form
Lagrange polynomial P(x) = Σ_i y_i ⋅ Π_{j≠i} (x − x_j)/(x_i − x_j). -/
def interpolate (pts : List (GF256elt × GF256elt)) : Except GFError (List GF256elt) :=
  interpAux [] pts

/-! ## Correctness of the modelled interpolator -/

theorem padd_nil_right (p : List GF256elt) : padd p [] = p := by
  cases p <;> rfl

theorem padd_nil_left (q : List GF256elt) : padd [] q = q := by
  cases q <;> rfl

theorem padd_length (p q : List GF256elt) :
    (padd p q).length = max p.length q.length := by
  induction p generalizing q with
  | nil => simp [padd_nil_left]
  | cons a p ih =>
    cases q with
    | nil => simp [padd_nil_right]
    | cons b q =>
      show ((a + b) :: padd p q).length = _
      simp only [List.length_cons, ih]
      omega

theorem toPoly_padd (p q : List GF256elt) :
    toPoly (padd p q) = toPoly p + toPoly q := by
  induction p generalizing q with
  | nil =>
    rw [padd_nil_left, toPoly_nil, zero_add]
  | cons a p ih =>
    cases q with
    | nil => rw [padd_nil_right, toPoly_nil, add_zero]
    | cons b q =>
      show toPoly ((a + b) :: padd p q) = _
      rw [toPoly_cons, ih, toPoly_cons, toPoly_cons, Polynomial.C_add]
      ring

theorem toPoly_pscale (c : GF256elt) (p : List GF256elt) :
    toPoly (pscale c p) = Polynomial.C c * toPoly p := by
  induction p with
  | nil => simp [pscale, toPoly_nil]
  | cons a p ih =>
    show toPoly (c * a :: pscale c p) = _
    rw [toPoly_cons, ih, toPoly_cons, Polynomial.C_mul]
    ring

theorem pscale_length (c : GF256elt) (p : List GF256elt) :
    (pscale c p).length = p.length := List.length_map _ _

theorem toPoly_pmulLin (r : GF256elt) (p : List GF256elt) :
    toPoly (pmulLin r p) = (Polynomial.X + Polynomial.C r) * toPoly p := by
  rw [pmulLin, toPoly_padd, toPoly_pscale, toPoly_cons, map_zero]
  ring

theorem pmulLin_length (r : GF256elt) (p : List GF256elt) :
    (pmulLin r p).length = p.length + 1 := by
  rw [pmulLin, padd_length, pscale_length, List.length_cons]
  omega

theorem lagrangeNumer_toPoly (os : List GF256elt) :
    toPoly (lagrangeNumer os) = (os.map fun r => Polynomial.X + Polynomial.C r).prod := by
  induction os with
  | nil =>
    show toPoly [1] = _
    rw [toPoly_cons, toPoly_nil]
    simp
  | cons a os ih =>
    show toPoly (pmulLin a (lagrangeNumer os)) = _
    rw [toPoly_pmulLin, ih, List.map_cons, List.prod_cons]

theorem lagrangeNumer_length (os : List GF256elt) :
    (lagrangeNumer os).length = os.length + 1 := by
  induction os with
  | nil => rfl
  | cons a os ih =>
    show (pmulLin a (lagrangeNumer os)).length = _
    rw [pmulLin_length, ih, List.length_cons]

theorem lagrangeDenom_eq_prod (xi : GF256elt) (os : List GF256elt) :
    lagrangeDenom xi os = (os.map fun xj => xi - xj).prod := by
  induction os with
  | nil => rfl
  | cons a os ih =>
    show (xi - a) * lagrangeDenom xi os = _
    rw [ih, List.map_cons, List.prod_cons]

theorem lagrangeDenom_ne_zero {xi : GF256elt} {os : List GF256elt} (h : xi ∉ os) :
    lagrangeDenom xi os ≠ 0 := by
  rw [lagrangeDenom_eq_prod]
  apply List.prod_ne_zero
  intro h0
  rcases List.mem_map.mp h0 with ⟨xj, hxj, he⟩
  have hxe : xi = xj := sub_eq_zero.mp he
  apply h
  rw [hxe]
  exact hxj

theorem numer_eval (os : List GF256elt) (z : GF256elt) :
    (toPoly (lagrangeNumer os)).eval z = (os.map fun xj => z + xj).prod := by
  rw [lagrangeNumer_toPoly, ← Polynomial.coe_evalRingHom, map_list_prod, List.map_map]
  have hfun : (⇑(Polynomial.evalRingHom z) ∘ fun r => Polynomial.X + Polynomial.C r)
      = fun xj : GF256elt => z + xj := by
    funext r
    simp [Function.comp]
  rw [hfun]

theorem numer_eval_mem {os : List GF256elt} {z : GF256elt} (hz : z ∈ os) :
    (toPoly (lagrangeNumer os)).eval z = 0 := by
  rw [numer_eval]
  apply List.prod_eq_zero
  exact List.mem_map.mpr ⟨z, hz, GF256elt.gf_add_self z⟩

theorem numer_eval_self (xi : GF256elt) (os : List GF256elt) :
    (toPoly (lagrangeNumer os)).eval xi = lagrangeDenom xi os := by
  rw [numer_eval, lagrangeDenom_eq_prod]
  simp only [GF256elt.sub_def]

/-- Unfolding of the interpolation recursion at a cons cell. -/
theorem interpAux_cons (pre : List GF256elt) (x y : GF256elt)
    (rest : List (GF256elt × GF256elt)) :
    interpAux pre ((x, y) :: rest) = (do
      let t ← lagrangeTerm x y (pre ++ rest.map Prod.fst)
      let s ← interpAux (pre ++ [x]) rest
      pure (padd t s)) := rfl

theorem ebind_ok {α β : Type} (a : α) (f : α → Except GFError β) :
    ((Except.ok a : Except GFError α) >>= f) = f a := rfl

theorem ebind_err {α β : Type} (e : GFError) (f : α → Except GFError β) :
    ((Except.error e : Except GFError α) >>= f) = Except.error e := rfl

theorem epure_bind {α β : Type} (a : α) (f : α → Except GFError β) :
    ((pure a : Except GFError α) >>= f) = f a := rfl

theorem lagrangeTerm_eq (xi yi : GF256elt) (os : List GF256elt) :
    lagrangeTerm xi yi os =
      (yi.div (lagrangeDenom xi os)) >>= fun c => pure (pscale c (lagrangeNumer os)) := rfl

/-- Interpolation succeeds on points with pairwise distinct x-coordinates,
and the resulting coefficient list has one entry per point. -/
theorem interpAux_ok (rest : List (GF256elt × GF256elt)) :
    ∀ pre : List GF256elt, (pre ++ rest.map Prod.fst).Nodup →
      ∃ q, interpAux pre rest = .ok q ∧
        (rest = [] → q = []) ∧ (rest ≠ [] → q.length = pre.length + rest.length) := by
  induction rest with
  | nil =>
    intro pre _
    exact ⟨[], rfl, fun _ => rfl, fun h => absurd rfl h⟩
  | cons hd rest ih =>
    intro pre h
    obtain ⟨x, y⟩ := hd
    simp only [List.map_cons] at h
    have h' := (List.nodup_cons.mp (List.nodup_middle.mp h))
    have hdenom : lagrangeDenom x (pre ++ rest.map Prod.fst) ≠ 0 :=
      lagrangeDenom_ne_zero h'.1
    have hdiv := GF256elt.div_ok (a := y) (GF256elt.ne_zero_iff_val.mp hdenom)
    have hpre' : ((pre ++ [x]) ++ rest.map Prod.fst).Nodup := by
      rw [← List.append_cons]
      exact h
    obtain ⟨s, hs, hs0, hslen⟩ := ih (pre ++ [x]) hpre'
    refine ⟨padd (pscale (y * (lagrangeDenom x (pre ++ rest.map Prod.fst))⁻¹)
      (lagrangeNumer (pre ++ rest.map Prod.fst))) s, ?_, ?_, ?_⟩
    · rw [interpAux_cons, lagrangeTerm_eq, hdiv, ebind_ok, epure_bind, hs, ebind_ok]
      rfl
    · intro hcon
      cases hcon
    · intro _
      rw [padd_length, pscale_length, lagrangeNumer_length, List.length_append,
        List.length_map, List.length_cons]
      rcases List.eq_nil_or_concat rest with hr | hr
      · subst hr
        rw [hs0 rfl]
        simp
      · have hrne : rest ≠ [] := by
          rcases hr with ⟨l, a, rfl⟩
          simp
        rw [hslen hrne, List.length_append]
        simp
        omega

/-- Every accumulated Lagrange term vanishes at the already-processed
x-coordinates. -/
theorem interpAux_eval_pre (rest : List (GF256elt × GF256elt)) :
    ∀ (pre : List GF256elt) (q : List GF256elt), interpAux pre rest = .ok q →
      ∀ z ∈ pre, (toPoly q).eval z = 0 := by
  induction rest with
  | nil =>
    intro pre q hq z _
    cases hq
    rw [toPoly_nil, Polynomial.eval_zero]
  | cons hd rest ih =>
    intro pre q hq z hz
    obtain ⟨x, y⟩ := hd
    rw [interpAux_cons, lagrangeTerm_eq] at hq
    cases hdiv : y.div (lagrangeDenom x (pre ++ rest.map Prod.fst)) with
    | error e => rw [hdiv, ebind_err] at hq; cases hq
    | ok c =>
      rw [hdiv, ebind_ok, epure_bind] at hq
      cases hs : interpAux (pre ++ [x]) rest with
      | error e => rw [hs, ebind_err] at hq; cases hq
      | ok s =>
        rw [hs, ebind_ok] at hq
        cases hq
        rw [toPoly_padd, Polynomial.eval_add, toPoly_pscale, Polynomial.eval_mul,
          Polynomial.eval_C, numer_eval_mem (List.mem_append_left _ hz), mul_zero,
          ih (pre ++ [x]) s hs z (List.mem_append_left _ hz), add_zero]

/-- The interpolating polynomial passes through every supplied point. -/
theorem interpAux_eval_node (rest : List (GF256elt × GF256elt)) :
    ∀ (pre : List GF256elt) (q : List GF256elt), interpAux pre rest = .ok q →
      (pre ++ rest.map Prod.fst).Nodup →
      ∀ x y : GF256elt, (x, y) ∈ rest → (toPoly q).eval x = y := by
  induction rest with
  | nil =>
    intro pre q _ _ x y hmem
    cases hmem
  | cons hd rest ih =>
    intro pre q hq hnd x y hmem
    obtain ⟨a, b⟩ := hd
    rw [interpAux_cons, lagrangeTerm_eq] at hq
    simp only [List.map_cons] at hnd
    have h' := (List.nodup_cons.mp (List.nodup_middle.mp hnd))
    have hdenom : lagrangeDenom a (pre ++ rest.map Prod.fst) ≠ 0 :=
      lagrangeDenom_ne_zero h'.1
    cases hdiv : b.div (lagrangeDenom a (pre ++ rest.map Prod.fst)) with
    | error e => rw [hdiv, ebind_err] at hq; cases hq
    | ok c =>
      have hc : c = b * (lagrangeDenom a (pre ++ rest.map Prod.fst))⁻¹ := by
        rw [GF256elt.div_ok (GF256elt.ne_zero_iff_val.mp hdenom)] at hdiv
        cases hdiv
        rfl
      rw [hdiv, ebind_ok, epure_bind] at hq
      cases hs : interpAux (pre ++ [a]) rest with
      | error e => rw [hs, ebind_err] at hq; cases hq
      | ok s =>
        rw [hs, ebind_ok] at hq
        cases hq
        rw [toPoly_padd, Polynomial.eval_add, toPoly_pscale, Polynomial.eval_mul,
          Polynomial.eval_C]
        rcases List.mem_cons.mp hmem with he | he
        · rw [Prod.mk.injEq] at he
          obtain ⟨rfl, rfl⟩ := he
          rw [numer_eval_self, hc,
            interpAux_eval_pre rest (pre ++ [x]) s hs x
              (List.mem_append_right _ (List.mem_singleton.mpr rfl)),
            add_zero, inv_mul_cancel_right₀ hdenom]
        · have hx_mem : x ∈ pre ++ rest.map Prod.fst :=
            List.mem_append_right _
              (List.mem_map.mpr ⟨(x, y), he, rfl⟩)
          rw [numer_eval_mem hx_mem, mul_zero, zero_add]
          have hnd' : ((pre ++ [a]) ++ rest.map Prod.fst).Nodup := by
            rw [← List.append_cons]
            exact hnd
          exact ih (pre ++ [a]) s hs hnd' x y he

theorem map_fst_graph (coeffs : List GF256elt) (xs : List GF256elt) :
    (xs.map fun x => (x, hornerEval coeffs x)).map Prod.fst = xs := by
  induction xs with
  | nil => rfl
  | cons a l ihl => simp only [List.map_cons, ihl]

/-- Interpolating the graph of a polynomial over distinct nodes and reading
the value at zero recovers the polynomial value at zero. -/
theorem interpolate_exact (coeffs : List GF256elt) (xs : List GF256elt)
    (hnd : xs.Nodup) (hne : coeffs ≠ []) (hlen : coeffs.length ≤ xs.length) :
    ∃ q, interpolate (xs.map fun x => (x, hornerEval coeffs x)) = .ok q ∧
      q.length = xs.length ∧ hornerEval q 0 = hornerEval coeffs 0 := by
  have hxs_ne : xs ≠ [] := by
    intro h
    subst h
    simp at hlen
    exact hne hlen
  have hmapfst : (xs.map fun x => (x, hornerEval coeffs x)).map Prod.fst = xs :=
    map_fst_graph coeffs xs
  have hnd' : (([] : List GF256elt) ++
      (xs.map fun x => (x, hornerEval coeffs x)).map Prod.fst).Nodup := by
    rw [List.nil_append, hmapfst]
    exact hnd
  obtain ⟨q, hq, _, hqlen⟩ := interpAux_ok _ [] hnd'
  have hpts_ne : xs.map (fun x => (x, hornerEval coeffs x)) ≠ [] := by
    intro h
    exact hxs_ne (List.map_eq_nil_iff.mp h)
  have hqlen' : q.length = xs.length := by
    rw [hqlen hpts_ne, List.length_nil, List.length_map, Nat.zero_add]
  refine ⟨q, hq, hqlen', ?_⟩
  have heval : ∀ x ∈ xs, (toPoly q).eval x = (toPoly coeffs).eval x := by
    intro x hx
    rw [← hornerEval_eq_eval coeffs x]
    exact interpAux_eval_node _ [] q hq hnd' x (hornerEval coeffs x)
      (List.mem_map.mpr ⟨x, hx, rfl⟩)
  have hcard : (xs.toFinset.card : ℕ) = xs.length := List.toFinset_card_of_nodup hnd
  have heq : toPoly q = toPoly coeffs := by
    apply Polynomial.eq_of_degrees_lt_of_eval_finset_eq xs.toFinset
    · rw [hcard, ← hqlen']
      exact toPoly_degree_lt q
    · rw [hcard]
      exact lt_of_lt_of_le (toPoly_degree_lt coeffs) (by exact_mod_cast hlen)
    · intro x hx
      exact heval x (List.mem_toFinset.mp hx)
  rw [hornerEval_eq_eval, hornerEval_eq_eval, heq]

/-! ## PySSSS.py: split (encode) and reconstruct (decode) -/

/-- Model of Python's `random.randint(lo, hi)`: an arbitrary raw draw `v`
from the randomness stream is reduced into the inclusive range [lo, hi].
Every value the model can return is one `randint` can return and
conversely, so quantifying over all streams covers all randomness. -/
def randint (lo hi v : Nat) : Nat := lo + v % (hi + 1 - lo)

/-- The inner `while True` rejection loop of `encode` (PySSSS.py lines
72-75): draw `randint(1, 255)` until a not-yet-picked value appears.
`ctr` indexes the randomness stream; `fuel` bounds the number of draws, and
`none` means the loop was still running when the bound was reached. -/
def pickOne (picked : List Bool) (r : Nat → Nat) : Nat → Nat → Option (Nat × Nat)
  | _, 0 => none
  | ctr, fuel + 1 =>
    let pick := randint 1 255 (r ctr)
    if picked.getD pick false then pickOne picked r (ctr + 1) fuel
    else some (pick, ctr + 1)

/-- The X-identifier selection loop of `encode` (PySSSS.py lines 63-80):
pick one fresh value per output, marking each in `picked`. -/
def pickXs : Nat → List Bool → (Nat → Nat) → Nat → Nat → Option (List Nat × Nat)
  | 0, _, _, ctr, _ => some ([], ctr)
  | n + 1, picked, r, ctr, fuel =>
    match pickOne picked r ctr fuel with
    | none => none
    | some (pick, ctr') =>
      match pickXs n (picked.set pick true) r ctr' fuel with
      | none => none
      | some (picks, ctr'') => some (pick :: picks, ctr'')

/-- `pickRandomPolynomial` (PySSSS.py lines 26-39): `degree + 1`
coefficients, the constant term being the secret byte and the remaining
`degree` drawn as `GF256elt(randint(0, 255))`. -/
def pickRandomPolynomial (degree : Nat) (value : GF256elt) (r : Nat → Nat) (ctr : Nat) :
    List GF256elt × Nat :=
  (value :: (List.range degree).map fun m => GF256elt.ofNat (randint 0 255 (r (ctr + m))),
    ctr + degree)

/-- `encodeByte` (PySSSS.py lines 42-56): draw a fresh degree-(k−1)
polynomial with constant term the secret byte and evaluate it at every
share identifier, yielding one `[X, Y]` byte pair per share.  The
polynomial always has at least its constant term, so the Horner evaluation
of `PGF256.f` cannot hit the empty-coefficients error. -/
def encodeByte (byte : Nat) (n k : Nat) (picks : List Nat) (r : Nat → Nat) (ctr : Nat) :
    List (List Nat) × Nat :=
  let P := pickRandomPolynomial (k - 1) (GF256elt.ofNat byte) r ctr
  ((List.range n).map fun i =>
    [(GF256elt.ofNat (picks.getD i 0)).val,
      (hornerEval P.1 (GF256elt.ofNat (picks.getD i 0))).val], P.2)

/-- The per-byte loop of `encode` (PySSSS.py lines 83-92): consume the
secret bytes, appending each round's `[X, Y]` pair to the matching
output sink. -/
def encodeBody (secret : List Nat) (n k : Nat) (picks : List Nat) (r : Nat → Nat)
    (ctr : Nat) : List (List Nat) :=
  match secret with
  | [] => List.replicate n []
  | b :: rest =>
    let kb := encodeByte b n k picks r ctr
    List.zipWith (· ++ ·) kb.1 (encodeBody rest n k picks r kb.2)

/-- `encode` (PySSSS.py lines 59-92), with `n = len(outputs)`: returns the
`n` output byte strings, or `none` when the identifier-selection loop is
still running after `fuel` draws. -/
def encode (secret : List Nat) (n k : Nat) (r : Nat → Nat) (fuel : Nat) :
    Option (List (List Nat)) :=
  match pickXs n (List.replicate 256 false) r 0 fuel with
  | none => none
  | some (picks, ctr) => some (encodeBody secret n k picks r ctr)

/-- The failure modes of `decode`. -/
inductive DecodeError where
  /-- `Exception('Unexpected EOF while reading key %d' % i)` (line 121). -/
  | unexpectedEOF (i : Nat)
  /-- the `TypeError` raised by `ord(b'')` when stream `i` supplies an X
  byte but no Y byte (line 114). -/
  | truncatedPair (i : Nat)
  /-- a field-arithmetic error surfaced from the interpolator or the
  polynomial evaluation. -/
  | arithmetic (e : GFError)
  /-- the recursion bound was reached. -/
  | outOfFuel
deriving DecidableEq

/-- The outcome of one lockstep read round of `decode`. -/
inductive RoundResult where
  | eof (i : Nat)
  | truncated (i : Nat)
  | points (pts : List (GF256elt × GF256elt)) (rest : List (List Nat))
deriving DecidableEq

/-- One pass of the `for i in range(0, len(keys))` loop of `decode`
(PySSSS.py lines 104-117): read an (X, Y) pair from each stream in order,
stopping at the first stream whose X read reports end-of-stream (`eof i`),
or failing like `ord(b'')` when a Y byte is missing (`truncated i`). -/
def roundRead : List (List Nat) → Nat → RoundResult
  | [], _ => .points [] []
  | [] :: _, i => .eof i
  | [_] :: _, i => .truncated i
  | (x :: y :: t) :: ks, i =>
    match roundRead ks (i + 1) with
    | .points pts rest => .points ((GF256elt.ofNat x, GF256elt.ofNat y) :: pts) (t :: rest)
    | other => other

/-- The `while not end_of_key` loop of `decode` (PySSSS.py lines 103-127),
with an explicit recursion bound.  A round that finds the first stream
(index 0) exhausted ends decoding successfully; a later stream exhausted
first raises the `Unexpected EOF while reading key i` exception. -/
def decodeLoop : Nat → List (List Nat) → List Nat → Except DecodeError (List Nat)
  | 0, _, _ => .error .outOfFuel
  | fuel + 1, keys, acc =>
    match roundRead keys 0 with
    | .eof i => if 0 ≠ i then .error (.unexpectedEOF i) else .ok acc
    | .truncated i => .error (.truncatedPair i)
    | .points pts rest =>
      match interpolate pts with
      | .error e => .error (.arithmetic e)
      | .ok q =>
        match polyEval q 0 with
        | .error e => .error (.arithmetic e)
        | .ok byte => decodeLoop fuel rest (acc ++ [byte.val])

/-- `decode` (PySSSS.py lines 95-127). -/
def decode (keys : List (List Nat)) (fuel : Nat) : Except DecodeError (List Nat) :=
  decodeLoop fuel keys []

/-! ## Properties of the identifier-selection loop -/

theorem randint_bounds (v : Nat) : 1 ≤ randint 1 255 v ∧ randint 1 255 v ≤ 255 := by
  rw [randint]
  have : v % 255 < 255 := Nat.mod_lt _ (by omega)
  omega

theorem getD_set_self (l : List Bool) {i : Nat} (b c : Bool) (h : i < l.length) :
    (l.set i b).getD i c = b := by
  rw [List.getD_eq_getElem?_getD, List.getElem?_set_self h]
  rfl

theorem getD_set_ne (l : List Bool) {i j : Nat} (b c : Bool) (h : i ≠ j) :
    (l.set i b).getD j c = l.getD j c := by
  rw [List.getD_eq_getElem?_getD, List.getD_eq_getElem?_getD, List.getElem?_set_ne h]

theorem pickOne_spec {picked : List Bool} {r : Nat → Nat} :
    ∀ {ctr fuel pick ctr'}, pickOne picked r ctr fuel = some (pick, ctr') →
      picked.getD pick false = false ∧ 1 ≤ pick ∧ pick ≤ 255 := by
  intro ctr fuel
  induction fuel generalizing ctr with
  | zero => intro pick ctr' h; cases h
  | succ fuel ih =>
    intro pick ctr' h
    simp only [pickOne] at h
    by_cases hp : picked.getD (randint 1 255 (r ctr)) false = true
    · rw [if_pos hp] at h
      exact ih h
    · rw [if_neg hp] at h
      cases h
      exact ⟨by simpa using hp, randint_bounds _⟩

theorem pickXs_spec :
    ∀ (n : Nat) (picked : List Bool) (ctr fuel : Nat) (picks : List Nat) (ctr' : Nat)
      {r : Nat → Nat},
      picked.length = 256 →
      pickXs n picked r ctr fuel = some (picks, ctr') →
      picks.length = n ∧ picks.Nodup ∧ (∀ p ∈ picks, 1 ≤ p ∧ p ≤ 255) ∧
        (∀ p ∈ picks, picked.getD p false = false) := by
  intro n
  induction n with
  | zero =>
    intro picked ctr fuel picks ctr' r _ h
    rw [pickXs] at h
    cases h
    exact ⟨rfl, List.nodup_nil, by simp, by simp⟩
  | succ n ih =>
    intro picked ctr fuel picks ctr' r hlen h
    rw [pickXs] at h
    cases h1 : pickOne picked r ctr fuel with
    | none => simp only [h1] at h; cases h
    | some pc =>
      obtain ⟨pick, ctr₂⟩ := pc
      simp only [h1] at h
      cases h2 : pickXs n (picked.set pick true) r ctr₂ fuel with
      | none => simp only [h2] at h; cases h
      | some pr =>
        obtain ⟨picks', ctr₃⟩ := pr
        simp only [h2, Option.some.injEq, Prod.mk.injEq] at h
        obtain ⟨h3, h4⟩ := h
        subst h3
        obtain ⟨hfree, h1p, h255⟩ := pickOne_spec h1
        have hlen' : (picked.set pick true).length = 256 := by
          rw [List.length_set]; exact hlen
        obtain ⟨hl, hnd, hbd, hfr⟩ := ih _ ctr₂ fuel picks' ctr₃ hlen' h2
        have hset : (picked.set pick true).getD pick false = true :=
          getD_set_self picked true false (by omega)
        refine ⟨by simp [hl], ?_, ?_, ?_⟩
        · rw [List.nodup_cons]
          refine ⟨fun hmem => ?_, hnd⟩
          have hcontr := hfr pick hmem
          rw [hset] at hcontr
          cases hcontr
        · intro p hp
          rcases List.mem_cons.mp hp with rfl | hp'
          · exact ⟨h1p, h255⟩
          · exact hbd p hp'
        · intro p hp
          rcases List.mem_cons.mp hp with rfl | hp'
          · exact hfree
          · have hfr' := hfr p hp'
            by_cases hpe : pick = p
            · subst hpe; rw [hset] at hfr'; cases hfr'
            · rw [getD_set_ne picked true false hpe] at hfr'
              exact hfr'

/-- The number of identifiers in [1,255] not yet marked in `picked`. -/
def freeCount (picked : List Bool) : Nat :=
  ((List.range 256).filter fun p => decide (1 ≤ p) && !picked.getD p false).length

theorem freeCount_init : freeCount (List.replicate 256 false) = 255 := by decide

theorem length_filter_drop (p q : Nat → Bool) (pick : Nat)
    (hp : p pick = true) (hq : q pick = false) :
    ∀ l : List Nat, l.Nodup → pick ∈ l → (∀ x ∈ l, x ≠ pick → q x = p x) →
      (l.filter q).length + 1 = (l.filter p).length := by
  intro l
  induction l with
  | nil => intro _ hin _; cases hin
  | cons a l ihl =>
    intro hnd hin hpq
    rw [List.nodup_cons] at hnd
    rcases List.mem_cons.mp hin with rfl | hin'
    · rw [List.filter_cons_of_pos hp, List.filter_cons_of_neg (by simp [hq]),
        List.filter_congr fun x hx =>
          hpq x (List.mem_cons_of_mem _ hx) (fun he => hnd.1 (he ▸ hx))]
      rw [List.length_cons]
    · have hane : a ≠ pick := fun he => by
        subst he
        exact hnd.1 hin'
      have hqa : q a = p a := hpq a (List.mem_cons_self _ _) hane
      have hrec := ihl hnd.2 hin' fun x hx hxne => hpq x (List.mem_cons_of_mem _ hx) hxne
      by_cases hpa : p a = true
      · rw [List.filter_cons_of_pos hpa, List.filter_cons_of_pos (hqa.trans hpa)]
        simp only [List.length_cons]
        omega
      · rw [List.filter_cons_of_neg hpa, List.filter_cons_of_neg (fun hh => hpa (hqa ▸ hh))]
        exact hrec

theorem freeCount_set {picked : List Bool} {pick : Nat} (h1 : 1 ≤ pick) (h255 : pick ≤ 255)
    (hlen : picked.length = 256) (hfree : picked.getD pick false = false) :
    freeCount (picked.set pick true) + 1 = freeCount picked := by
  show ((List.range 256).filter fun p =>
      decide (1 ≤ p) && !(picked.set pick true).getD p false).length + 1
    = ((List.range 256).filter fun p => decide (1 ≤ p) && !picked.getD p false).length
  refine length_filter_drop _ _ pick ?_ ?_ (List.range 256) (List.nodup_range 256)
    (List.mem_range.mpr (by omega)) ?_
  · show (decide (1 ≤ pick) && !picked.getD pick false) = true
    rw [hfree, decide_eq_true h1]
    rfl
  · show (decide (1 ≤ pick) && !(picked.set pick true).getD pick false) = false
    rw [getD_set_self picked true false (by omega), decide_eq_true h1]
    rfl
  · intro x _ hxne
    show (decide (1 ≤ x) && !(picked.set pick true).getD x false)
        = (decide (1 ≤ x) && !picked.getD x false)
    rw [getD_set_ne picked true false (Ne.symm hxne)]

/-- Any successful identifier selection picks at most as many values as
there are unpicked identifiers. -/
theorem pickXs_le_freeCount :
    ∀ (n : Nat) (picked : List Bool) (ctr fuel : Nat) (res : List Nat × Nat)
      {r : Nat → Nat},
      picked.length = 256 →
      pickXs n picked r ctr fuel = some res → n ≤ freeCount picked := by
  intro n
  induction n with
  | zero => intro _ _ _ _ _ _ _; omega
  | succ n ih =>
    intro picked ctr fuel res r hlen h
    rw [pickXs] at h
    cases h1 : pickOne picked r ctr fuel with
    | none => simp only [h1] at h; cases h
    | some pc =>
      obtain ⟨pick, ctr₂⟩ := pc
      simp only [h1] at h
      cases h2 : pickXs n (picked.set pick true) r ctr₂ fuel with
      | none => simp only [h2] at h; cases h
      | some pr =>
        obtain ⟨hfree, h1p, h255⟩ := pickOne_spec h1
        have hlen' : (picked.set pick true).length = 256 := by
          rw [List.length_set]; exact hlen
        have hrec := ih _ ctr₂ fuel pr hlen' h2
        have hdrop := freeCount_set h1p h255 hlen hfree
        omega

/-! ## Structure of encoded shares and lockstep decoding -/

theorem ofNat_val (a : GF256elt) : GF256elt.ofNat a.val = a :=
  GF256elt.val_inj (Nat.mod_eq_of_lt a.isLt)

/-- The byte stream one share accumulates over a run: one `[X, P_t(X)]`
pair per secret byte (proof device describing `encode`'s outputs). -/
def streamFor (x : GF256elt) (polys : List (List GF256elt)) : List Nat :=
  (polys.map fun P => [x.val, (hornerEval P x).val]).flatten

theorem streamFor_nil (x : GF256elt) : streamFor x [] = [] := rfl

theorem streamFor_cons (x : GF256elt) (P : List GF256elt) (polys : List (List GF256elt)) :
    streamFor x (P :: polys) = x.val :: (hornerEval P x).val :: streamFor x polys := rfl

theorem streamFor_length (x : GF256elt) (polys : List (List GF256elt)) :
    (streamFor x polys).length = 2 * polys.length := by
  induction polys with
  | nil => rfl
  | cons P polys ih =>
    rw [streamFor_cons, List.length_cons, List.length_cons, ih, List.length_cons]
    omega

/-- A read round over streams that all begin with a complete pair. -/
theorem roundRead_points (ss : List (GF256elt × GF256elt × List Nat)) :
    ∀ i, roundRead (ss.map fun s => s.1.val :: s.2.1.val :: s.2.2) i
      = .points (ss.map fun s => (s.1, s.2.1)) (ss.map fun s => s.2.2) := by
  induction ss with
  | nil => intro _; rfl
  | cons s ss ih =>
    intro i
    obtain ⟨x, y, t⟩ := s
    simp only [List.map_cons, roundRead, ih (i + 1), ofNat_val]

theorem polyEval_of_ne {q : List GF256elt} (h : q ≠ []) (x : GF256elt) :
    polyEval q x = .ok (hornerEval q x) := by
  rw [polyEval, if_neg]
  simp only [List.isEmpty_iff]
  exact h

theorem decodeLoop_eof {keys : List (List Nat)} {i : Nat} (fuel : Nat) (acc : List Nat)
    (h : roundRead keys 0 = .eof i) :
    decodeLoop (fuel + 1) keys acc
      = if 0 ≠ i then .error (.unexpectedEOF i) else .ok acc := by
  simp only [decodeLoop, h]

theorem decodeLoop_trunc {keys : List (List Nat)} {i : Nat} (fuel : Nat) (acc : List Nat)
    (h : roundRead keys 0 = .truncated i) :
    decodeLoop (fuel + 1) keys acc = .error (.truncatedPair i) := by
  simp only [decodeLoop, h]

theorem decodeLoop_step {keys : List (List Nat)} {pts : List (GF256elt × GF256elt)}
    {rest : List (List Nat)} {q : List GF256elt} {byte : GF256elt}
    (fuel : Nat) (acc : List Nat)
    (h1 : roundRead keys 0 = .points pts rest)
    (h2 : interpolate pts = .ok q)
    (h3 : polyEval q 0 = .ok byte) :
    decodeLoop (fuel + 1) keys acc = decodeLoop fuel rest (acc ++ [byte.val]) := by
  simp only [decodeLoop, h1, h2, h3]

/-- Lockstep decoding of well-formed shares of a common length built from
pairwise distinct identifiers: one byte is recovered per round. -/
theorem decode_streams (xs : List GF256elt) (hnd : xs.Nodup) (hne : xs ≠ []) :
    ∀ polys : List (List GF256elt), (∀ P ∈ polys, P ≠ [] ∧ P.length ≤ xs.length) →
      ∀ acc, decodeLoop (polys.length + 1) (xs.map fun x => streamFor x polys) acc
        = .ok (acc ++ polys.map fun P => (hornerEval P 0).val) := by
  intro polys
  induction polys with
  | nil =>
    intro _ acc
    cases xs with
    | nil => exact absurd rfl hne
    | cons a xs' =>
      have h : roundRead ((a :: xs').map fun x => streamFor x []) 0 = .eof 0 := rfl
      simp only [List.length_nil]
      rw [decodeLoop_eof 0 acc h]
      simp
  | cons P polys ih =>
    intro hP acc
    have hPhead := hP P (List.mem_cons_self _ _)
    have hPtail : ∀ Q ∈ polys, Q ≠ [] ∧ Q.length ≤ xs.length :=
      fun Q hQ => hP Q (List.mem_cons_of_mem _ hQ)
    obtain ⟨q, hq, hqlen, heval⟩ := interpolate_exact P xs hnd hPhead.1 hPhead.2
    have hqne : q ≠ [] := by
      intro h
      rw [h] at hqlen
      simp only [List.length_nil] at hqlen
      exact hne (List.length_eq_zero.mp hqlen.symm)
    have hxs_map : xs.map (fun x => streamFor x (P :: polys))
        = (xs.map fun x => (x, hornerEval P x, streamFor x polys)).map
            (fun s => s.1.val :: s.2.1.val :: s.2.2) := by
      rw [List.map_map]
      rfl
    have h1 := roundRead_points (xs.map fun x => (x, hornerEval P x, streamFor x polys)) 0
    have hpts : (xs.map fun x => (x, hornerEval P x, streamFor x polys)).map
        (fun s => (s.1, s.2.1)) = xs.map fun x => (x, hornerEval P x) := by
      rw [List.map_map]
      rfl
    have hrest : (xs.map fun x => (x, hornerEval P x, streamFor x polys)).map
        (fun s => s.2.2) = xs.map fun x => streamFor x polys := by
      rw [List.map_map]
      rfl
    rw [hpts, hrest] at h1
    rw [hxs_map, List.length_cons,
      decodeLoop_step (polys.length + 1) acc h1 hq
        (by rw [polyEval_of_ne hqne, heval])]
    rw [ih hPtail (acc ++ [(hornerEval P 0).val])]
    simp [List.append_assoc]

/-- The per-byte polynomials generated along a run of `encode` (proof
device mirroring the sampling in `encodeBody`). -/
def polysOf (secret : List Nat) (k : Nat) (r : Nat → Nat) (ctr : Nat) :
    List (List GF256elt) :=
  match secret with
  | [] => []
  | b :: rest =>
    (pickRandomPolynomial (k - 1) (GF256elt.ofNat b) r ctr).1 ::
      polysOf rest k r (pickRandomPolynomial (k - 1) (GF256elt.ofNat b) r ctr).2

theorem polysOf_length (k : Nat) (r : Nat → Nat) :
    ∀ (secret : List Nat) (ctr : Nat), (polysOf secret k r ctr).length = secret.length := by
  intro secret
  induction secret with
  | nil => intro _; rfl
  | cons b rest ih =>
    intro ctr
    rw [polysOf, List.length_cons, ih, List.length_cons]

theorem polysOf_shape (k : Nat) (hk : 1 ≤ k) (r : Nat → Nat) :
    ∀ (secret : List Nat) (ctr : Nat), ∀ Q ∈ polysOf secret k r ctr, Q.length = k := by
  intro secret
  induction secret with
  | nil => intro _ Q hQ; cases hQ
  | cons b rest ih =>
    intro ctr Q hQ
    rw [polysOf] at hQ
    rcases List.mem_cons.mp hQ with rfl | hQ'
    · rw [pickRandomPolynomial]
      simp only [List.length_cons, List.length_map, List.length_range]
      omega
    · exact ih _ Q hQ'

theorem polysOf_consts (k : Nat) (r : Nat → Nat) :
    ∀ (secret : List Nat), (∀ b ∈ secret, b < 256) → ∀ ctr : Nat,
      (polysOf secret k r ctr).map (fun P => (hornerEval P 0).val) = secret := by
  intro secret
  induction secret with
  | nil => intro _ _; rfl
  | cons b rest ih =>
    intro hb ctr
    rw [polysOf, List.map_cons, pickRandomPolynomial]
    rw [hornerEval_at_zero]
    rw [ih (fun x hx => hb x (List.mem_cons_of_mem _ hx))]
    congr 1
    exact Nat.mod_eq_of_lt (hb b (List.mem_cons_self _ _))

theorem getD_map_range {α : Type} (n i : Nat) (f : Nat → α) (d : α) (h : i < n) :
    ((List.range n).map f).getD i d = f i := by
  rw [List.getD_eq_getElem?_getD, List.getElem?_map, List.getElem?_range h]
  rfl

/-- The outputs of `encode`'s per-byte loop are exactly the share streams
of the generated polynomials. -/
theorem encodeBody_streams (n k : Nat) (picks : List Nat) (r : Nat → Nat) :
    ∀ (secret : List Nat) (ctr : Nat),
      encodeBody secret n k picks r ctr
        = (List.range n).map fun i =>
            streamFor (GF256elt.ofNat (picks.getD i 0)) (polysOf secret k r ctr) := by
  intro secret
  induction secret with
  | nil =>
    intro ctr
    rw [encodeBody]
    symm
    rw [List.eq_replicate_iff]
    refine ⟨by simp, ?_⟩
    intro b hb
    rcases List.mem_map.mp hb with ⟨i, _, rfl⟩
    rfl
  | cons b rest ih =>
    intro ctr
    rw [encodeBody, ih]
    rw [show (encodeByte b n k picks r ctr).1
        = (List.range n).map fun i =>
          [(GF256elt.ofNat (picks.getD i 0)).val,
            (hornerEval (pickRandomPolynomial (k - 1) (GF256elt.ofNat b) r ctr).1
              (GF256elt.ofNat (picks.getD i 0))).val] from rfl]
    rw [List.zipWith_map, List.zipWith_same]
    rfl

/-! ## Decoding streams of unequal lengths -/

/-- A share stream holding arbitrary pair data: one `[X, Y]` pair per
entry of `ys` (proof device for length-mismatch scenarios). -/
def pairStream (x : GF256elt) (ys : List GF256elt) : List Nat :=
  (ys.map fun y => [x.val, y.val]).flatten

theorem pairStream_nil (x : GF256elt) : pairStream x [] = [] := rfl

theorem pairStream_cons (x y : GF256elt) (ys : List GF256elt) :
    pairStream x (y :: ys) = x.val :: y.val :: pairStream x ys := rfl

theorem getD_map_lt {α β : Type} (f : α → β) (l : List α) (i : Nat) (d : α) (db : β)
    (h : i < l.length) : (l.map f).getD i db = f (l.getD i d) := by
  rw [List.getD_eq_getElem?_getD, List.getElem?_map, List.getElem?_eq_getElem h,
    List.getD_eq_getElem?_getD, List.getElem?_eq_getElem h]
  rfl

/-- A read round stops with `eof i` at the first exhausted stream when all
earlier streams still hold a full pair. -/
theorem roundRead_eof_at :
    ∀ (ks : List (List Nat)) (i i0 : Nat), i < ks.length →
      ks.getD i [] = [] →
      (∀ j < i, ∃ a b t, ks.getD j [] = a :: b :: t) →
      roundRead ks i0 = .eof (i0 + i) := by
  intro ks
  induction ks with
  | nil =>
    intro i i0 hi _ _
    simp at hi
  | cons k ks ih =>
    intro i i0 hi hempty hfull
    cases i with
    | zero =>
      have hk : k = [] := hempty
      subst hk
      rfl
    | succ m =>
      obtain ⟨a, b, t, hk⟩ := hfull 0 (Nat.succ_pos m)
      have hk' : k = a :: b :: t := hk
      subst hk'
      have hrec : roundRead ks (i0 + 1) = .eof (i0 + 1 + m) := by
        apply ih m (i0 + 1)
        · simpa using Nat.lt_of_succ_lt_succ hi
        · exact hempty
        · intro j hj
          exact hfull (j + 1) (Nat.succ_lt_succ hj)
      show (match roundRead ks (i0 + 1) with
        | .points pts rest =>
          RoundResult.points ((GF256elt.ofNat a, GF256elt.ofNat b) :: pts) (t :: rest)
        | other => other) = .eof (i0 + (m + 1))
      rw [hrec]
      show RoundResult.eof (i0 + 1 + m) = .eof (i0 + (m + 1))
      congr 1
      omega

/-- Characterisation of `decode` on pair-aligned streams with a unique
strictly shortest stream at position `i`: the rounds before the divergence
succeed, and the round that finds stream `i` exhausted raises the
`Unexpected EOF` error exactly when `i ≠ 0`, completing normally when
`i = 0`. -/
theorem decode_mismatch :
    ∀ (L : Nat) (ss : List (GF256elt × List GF256elt)) (i : Nat),
      i < ss.length → (ss.map Prod.fst).Nodup →
      (ss.getD i ((0 : GF256elt), ([] : List GF256elt))).2.length = L →
      (∀ j < ss.length, j ≠ i → L < (ss.getD j ((0 : GF256elt), [])).2.length) →
      ∀ (fuel : Nat) (acc : List Nat), L < fuel →
        (i ≠ 0 → decodeLoop fuel (ss.map fun s => pairStream s.1 s.2) acc
            = .error (.unexpectedEOF i)) ∧
        (i = 0 → ∃ out, decodeLoop fuel (ss.map fun s => pairStream s.1 s.2) acc
            = .ok out) := by
  intro L
  induction L with
  | zero =>
    intro ss i hi hnd hLi hmin fuel acc hfuel
    obtain ⟨fuel, rfl⟩ : ∃ f, fuel = f + 1 := ⟨fuel - 1, by omega⟩
    have heof : roundRead (ss.map fun s => pairStream s.1 s.2) 0 = .eof i := by
      have h0 := roundRead_eof_at (ss.map fun s => pairStream s.1 s.2) i 0
        (by simpa using hi) ?_ ?_
      · simpa using h0
      · rw [getD_map_lt _ ss i ((0 : GF256elt), ([] : List GF256elt)) [] hi]
        have : (ss.getD i ((0 : GF256elt), [])).2 = [] :=
          List.length_eq_zero.mp hLi
        rw [this, pairStream_nil]
      · intro j hj
        have hjlt : j < ss.length := lt_trans hj hi
        rw [getD_map_lt _ ss j ((0 : GF256elt), ([] : List GF256elt)) [] hjlt]
        have hlen := hmin j hjlt (Nat.ne_of_lt hj)
        obtain ⟨y, ys, hys⟩ : ∃ y ys, (ss.getD j ((0 : GF256elt), [])).2 = y :: ys := by
          cases hys : (ss.getD j ((0 : GF256elt), [])).2 with
          | nil => rw [hys] at hlen; simp at hlen
          | cons y ys => exact ⟨y, ys, rfl⟩
        rw [hys, pairStream_cons]
        exact ⟨_, _, _, rfl⟩
    constructor
    · intro hne
      rw [decodeLoop_eof fuel acc heof, if_pos (Ne.symm hne)]
    · intro he
      subst he
      refine ⟨acc, ?_⟩
      rw [decodeLoop_eof fuel acc heof, if_neg (by omega)]
  | succ m ih =>
    intro ss i hi hnd hLi hmin fuel acc hfuel
    obtain ⟨fuel, rfl⟩ : ∃ f, fuel = f + 1 := ⟨fuel - 1, by omega⟩
    have hne_mem : ∀ s ∈ ss, s.2 ≠ [] := by
      intro s hs hcon
      obtain ⟨j, hj, hsj⟩ := List.mem_iff_getElem.mp hs
      have hgd : ss.getD j ((0 : GF256elt), []) = s := by
        rw [List.getD_eq_getElem?_getD, List.getElem?_eq_getElem hj]
        simpa using hsj
      by_cases hji : j = i
      · subst hji
        rw [hgd, hcon] at hLi
        simp at hLi
      · have := hmin j hj hji
        rw [hgd, hcon] at this
        simp at this
    have hsplit : ss.map (fun s => pairStream s.1 s.2)
        = (ss.map fun s => (s.1, s.2.headD 0, pairStream s.1 s.2.tail)).map
            (fun t => t.1.val :: t.2.1.val :: t.2.2) := by
      rw [List.map_map]
      apply List.map_congr_left
      intro s hs
      obtain ⟨y, ys, hys⟩ : ∃ y ys, s.2 = y :: ys := by
        cases hys2 : s.2 with
        | nil => exact absurd hys2 (hne_mem s hs)
        | cons y ys => exact ⟨y, ys, rfl⟩
      show pairStream s.1 s.2 = s.1.val :: (s.2.headD 0).val :: pairStream s.1 s.2.tail
      rw [hys, pairStream_cons]
      rfl
    have h1 := roundRead_points (ss.map fun s => (s.1, s.2.headD 0, pairStream s.1 s.2.tail)) 0
    have hpts : (ss.map fun s => (s.1, s.2.headD 0, pairStream s.1 s.2.tail)).map
        (fun t => (t.1, t.2.1)) = ss.map fun s => (s.1, s.2.headD 0) := by
      rw [List.map_map]
      rfl
    have hrest : (ss.map fun s => (s.1, s.2.headD 0, pairStream s.1 s.2.tail)).map
        (fun t => t.2.2) = ss.map fun s => pairStream s.1 s.2.tail := by
      rw [List.map_map]
      rfl
    rw [hpts, hrest] at h1
    have hnd' : (([] : List GF256elt)
        ++ ((ss.map fun s => (s.1, s.2.headD 0)).map Prod.fst)).Nodup := by
      rw [List.nil_append, List.map_map]
      exact hnd
    obtain ⟨q, hq, hq0, hqlen⟩ := interpAux_ok (ss.map fun s => (s.1, s.2.headD 0)) [] hnd'
    have hss_ne : ss ≠ [] := by
      intro h
      rw [h] at hi
      simp at hi
    have hpts_ne : (ss.map fun s => (s.1, s.2.headD 0)) ≠ [] := by
      intro h
      exact hss_ne (List.map_eq_nil_iff.mp h)
    have hqne : q ≠ [] := by
      intro h
      have h2 := hqlen hpts_ne
      rw [h] at h2
      simp at h2
      omega
    have hq' : interpolate (ss.map fun s => (s.1, s.2.headD 0)) = .ok q := hq
    rw [hsplit, decodeLoop_step fuel acc h1 hq' (polyEval_of_ne hqne 0)]
    have hmap_tail : ss.map (fun s => pairStream s.1 s.2.tail)
        = (ss.map fun s => (s.1, s.2.tail)).map (fun s => pairStream s.1 s.2) := by
      rw [List.map_map]
      rfl
    rw [hmap_tail]
    have hilen : i < (ss.map fun s => (s.1, s.2.tail)).length := by simpa using hi
    have hndtail : ((ss.map fun s => (s.1, s.2.tail)).map Prod.fst).Nodup := by
      rw [List.map_map]
      exact hnd
    have hLtail : ((ss.map fun s => (s.1, s.2.tail)).getD i
        ((0 : GF256elt), ([] : List GF256elt))).2.length = m := by
      rw [getD_map_lt _ ss i ((0 : GF256elt), ([] : List GF256elt)) _ hi]
      simp only [List.length_tail, hLi]
      omega
    have hmintail : ∀ j < (ss.map fun s => (s.1, s.2.tail)).length, j ≠ i →
        m < ((ss.map fun s => (s.1, s.2.tail)).getD j ((0 : GF256elt), [])).2.length := by
      intro j hj hji
      have hjlt : j < ss.length := by simpa using hj
      rw [getD_map_lt _ ss j ((0 : GF256elt), ([] : List GF256elt)) _ hjlt]
      have := hmin j hjlt hji
      simp only [List.length_tail]
      omega
    exact ih (ss.map fun s => (s.1, s.2.tail)) i hilen hndtail hLtail hmintail fuel
      (acc ++ [(hornerEval q 0).val]) (by omega)

/-! ## Remaining helper facts -/

theorem getD_mem_of_lt {α : Type} (l : List α) (i : Nat) (d : α) (h : i < l.length) :
    l.getD i d ∈ l := by
  rw [List.getD_eq_getElem?_getD, List.getElem?_eq_getElem h]
  exact List.getElem_mem h

theorem rij_exp_log_lit : ∀ v < 256, 1 ≤ v →
    rijExptLit.getD (rijLogtLit.getD v 0) 0 = v := by decide

theorem rij_log_exp_lit : ∀ i < 255, rijLogtLit.getD (rijExptLit.getD i 0) 0 = i := by decide

theorem rij_ends_lit : rijExptLit.getD 255 0 = 1 ∧ rijExptLit.getD 0 0 = 1 := by decide

/-! ## The claims -/

/-- C3 counterexample: in the tables the module actually builds
(`generate_pplogexp_tables(0x11d)`, GF256elt.py line 175), `log[exp[0]]`
is 255, not 0: the generation loop runs up to `i = 255` where
`exp[255] = 1` overwrites `log[1]`, so the claimed identity
`log[exp[i]] == i` for all `i` in [0,254] fails at `i = 0`. -/
theorem c3_counterexample : logT (expT 0) = 255 ∧ logT (expT 0) ≠ 0 := by
  rw [expT_eq, logT_eq]
  decide

/-- C3 (amended): for the instantiated parameterized strategy
(`generate_pplogexp_tables(0x11d)`): `exp[log[v]] = v` for every nonzero
byte `v`, `log[exp[i]] = i` for `i` in [1,254] but `log[exp[0]] = 255`,
and `exp[255] = exp[0] = 1`; for `generate_logexp_tables` the full
invariant holds, including `i = 0`, with `exp[255] = exp[0] = 1`. -/
theorem c3_amended :
    (∀ v, 1 ≤ v → v < 256 → expT (logT v) = v) ∧
    (∀ i, 1 ≤ i → i < 255 → logT (expT i) = i) ∧
    logT (expT 0) = 255 ∧ expT 255 = 1 ∧ expT 0 = 1 ∧
    (∀ v, 1 ≤ v → v < 256 →
      generate_logexp_tables.1.getD (generate_logexp_tables.2.getD v 0) 0 = v) ∧
    (∀ i, i < 255 →
      generate_logexp_tables.2.getD (generate_logexp_tables.1.getD i 0) 0 = i) ∧
    generate_logexp_tables.1.getD 255 0 = 1 ∧ generate_logexp_tables.1.getD 0 0 = 1 := by
  refine ⟨fun v h1 h2 => expT_logT h1 h2, fun i h1 h2 => logT_expT_exact h1 h2,
    ?_, expT_255, expT_zero, ?_, ?_, ?_, ?_⟩
  · rw [expT_eq, logT_eq]; decide
  · intro v h1 h2
    rw [rijTables_eq_lit]
    exact rij_exp_log_lit v h2 h1
  · intro i h
    rw [rijTables_eq_lit]
    exact rij_log_exp_lit i h
  · rw [rijTables_eq_lit]
    exact rij_ends_lit.1
  · rw [rijTables_eq_lit]
    exact rij_ends_lit.2

theorem c3_amended_witness : expT (logT 7) = 7 ∧ logT (expT 9) = 9 :=
  ⟨c3_amended.1 7 (by decide) (by decide), c3_amended.2.1 9 (by decide) (by decide)⟩

/-- C5: `GF256elt.__mul__` returns zero when either operand is zero, and
`exp[(log[a] + log[b]) mod 255]` otherwise. -/
theorem c5_mul_spec : ∀ a b : GF256elt,
    ((a.val = 0 ∨ b.val = 0) → a.mul b = GF256elt.zero) ∧
    (a.val ≠ 0 → b.val ≠ 0 →
      (a.mul b).val = expT ((logT a.val + logT b.val) % 255)) := by
  intro a b
  constructor
  · rintro (h | h)
    · exact GF256elt.mul_zero_left h b
    · exact GF256elt.mul_zero_right a h
  · intro ha hb
    exact GF256elt.mul_val_ne ha hb

theorem c5_witness :
    GF256elt.mul (GF256elt.ofNat 0) (GF256elt.ofNat 7) = GF256elt.zero ∧
    (GF256elt.mul (GF256elt.ofNat 3) (GF256elt.ofNat 7)).val
      = expT ((logT (GF256elt.ofNat 3).val + logT (GF256elt.ofNat 7).val) % 255) :=
  ⟨(c5_mul_spec _ _).1 (Or.inl rfl), (c5_mul_spec _ _).2 (by decide) (by decide)⟩

/-- C6: `GF256elt.__truediv__` fails with DivisionByZero exactly on a zero
divisor, returns zero on a zero dividend, and otherwise the normalized
`exp[((log[a] - log[b]) mod 255 + 255) mod 255]`; `GF256elt.log` fails
with InvalidOperand exactly on zero and returns `log[a]` otherwise. -/
theorem c6_div_log_spec : ∀ a b : GF256elt,
    (a.div b = .error .divisionByZero ↔ b.val = 0) ∧
    (b.val ≠ 0 → a.val = 0 → a.div b = .ok GF256elt.zero) ∧
    (b.val ≠ 0 → a.val ≠ 0 →
      a.div b = .ok ⟨expT ((((logT a.val : Int) - (logT b.val : Int)) % 255 + 255) % 255).toNat,
        expT_lt _⟩) ∧
    (a.dlog = .error .invalidOperand ↔ a.val = 0) ∧
    (a.val ≠ 0 → a.dlog = .ok (logT a.val)) := by
  intro a b
  refine ⟨GF256elt.div_err_iff a b, ?_, ?_, ?_, ?_⟩
  · intro hb ha
    rw [GF256elt.div, if_neg hb, if_pos ha]
    rfl
  · intro hb ha
    rw [GF256elt.div, if_neg hb, if_neg ha]
    congr 1
    apply GF256elt.val_inj
    show expT (pNorm _).toNat = expT _
    congr 1
    have hp0 : (0 : Int) ≤ ((logT a.val : Int) - (logT b.val : Int)) % 255 :=
      Int.emod_nonneg _ (by norm_num)
    have hplt : ((logT a.val : Int) - (logT b.val : Int)) % 255 < 255 :=
      Int.emod_lt_of_pos _ (by norm_num)
    rw [pNorm, if_neg (by omega)]
    omega
  · constructor
    · intro h
      by_contra ha
      rw [GF256elt.dlog, if_neg ha] at h
      cases h
    · intro ha
      rw [GF256elt.dlog, if_pos ha]
  · intro ha
    rw [GF256elt.dlog, if_neg ha]

theorem c6_witness :
    ((GF256elt.ofNat 5).div (GF256elt.ofNat 0) = .error .divisionByZero) ∧
    ((GF256elt.ofNat 0).div (GF256elt.ofNat 5) = .ok GF256elt.zero) ∧
    ((GF256elt.ofNat 0).dlog = .error .invalidOperand) ∧
    ((GF256elt.ofNat 6).dlog = .ok (logT (GF256elt.ofNat 6).val)) :=
  ⟨(c6_div_log_spec _ _).1.mpr rfl, (c6_div_log_spec _ _).2.1 (by decide) rfl,
    (c6_div_log_spec (GF256elt.ofNat 0) (GF256elt.ofNat 0)).2.2.2.1.mpr rfl,
    (c6_div_log_spec (GF256elt.ofNat 6) (GF256elt.ofNat 6)).2.2.2.2 (by decide)⟩

/-- C7: for nonzero `a`, dividing `b` by `a` and multiplying back by `a`
recovers `b`. -/
theorem c7_mul_div_cancel : ∀ a b : GF256elt, a.val ≠ 0 →
    ∃ q, b.div a = .ok q ∧ a.mul q = b := by
  intro a b ha
  refine ⟨b * a⁻¹, GF256elt.div_ok ha, ?_⟩
  rw [← GF256elt.mul_def, mul_comm b a⁻¹,
    mul_inv_cancel_left₀ (GF256elt.ne_zero_iff_val.mpr ha)]

theorem c7_witness : ∃ q,
    (GF256elt.ofNat 7).div (GF256elt.ofNat 3) = .ok q ∧
    (GF256elt.ofNat 3).mul q = GF256elt.ofNat 7 :=
  c7_mul_div_cancel (GF256elt.ofNat 3) (GF256elt.ofNat 7) (by decide)

/-- C10: a share stream with an odd byte count (an X byte with no
following Y byte) drives `decode` into the unguarded second `ord(read(1))`
(PySSSS.py line 114): the result is neither success nor the
`Unexpected EOF` length-check error, but the `TypeError`-like failure of
`ord` on an empty read. -/
theorem c10_truncated_pair : decode [[1]] 1 = .error (.truncatedPair 0) := rfl

/-- C9: with more than 255 output sinks, the identifier-picking loop of
`encode` can never complete — all 255 usable values are eventually marked
picked, after which every draw is rejected — so for every randomness
stream and every bound, `encode` is still running: no error, no output. -/
theorem c9_encode_diverges (secret : List Nat) (n k : Nat) (r : Nat → Nat)
    (hn : 255 < n) : ∀ fuel, encode secret n k r fuel = none := by
  intro fuel
  cases hp : pickXs n (List.replicate 256 false) r 0 fuel with
  | none => rw [encode, hp]
  | some res =>
    have hle := pickXs_le_freeCount n _ 0 fuel res (by simp) hp
    rw [freeCount_init] at hle
    omega

theorem c9_witness : encode [1] 256 2 (fun _ => 0) 5 = none :=
  c9_encode_diverges [1] 256 2 (fun _ => 0) (by omega) 5

/-- C4 counterexample: `encode` performs no parameter validation: with
K = 2 > N = 1 it happily produces a share instead of failing with an
InvalidArgument error. -/
theorem c4_counterexample : encode [5] 1 2 (fun _ => 0) 1 = some [[1, 5]] := by decide

/-- C4 (amended): `encode` validates nothing: whenever the
identifier-selection loop terminates — in particular for any K < 1 or
K > N with N ≤ 255 — it produces share output rather than an
InvalidArgument failure (and for N > 255 it never terminates, again
raising nothing). -/
theorem c4_amended (secret : List Nat) (n k : Nat) (r : Nat → Nat) (fuel : Nat)
    (res : List Nat × Nat) (_hbad : k < 1 ∨ n < k)
    (hp : pickXs n (List.replicate 256 false) r 0 fuel = some res) :
    encode secret n k r fuel = some (encodeBody secret n k res.1 r res.2) := by
  simp only [encode, hp]

theorem c4_witness :
    encode [5] 1 2 (fun _ => 0) 1 = some (encodeBody [5] 1 2 [1] (fun _ => 0) 1) :=
  c4_amended [5] 1 2 (fun _ => 0) 1 ([1], 1) (Or.inr (by omega)) (by decide)

/-- C8: a successful `encode` run with N outputs over an L-byte secret
produces exactly N streams, each consisting of L consecutive (X, Y) byte
pairs (2L bytes) sharing one X value throughout the stream, with the N X
identifiers drawn pairwise distinct from [1,255]. -/
theorem c8_share_shape (secret : List Nat) (n k : Nat) (r : Nat → Nat) (fuel : Nat)
    (outs : List (List Nat)) (he : encode secret n k r fuel = some outs) :
    outs.length = n ∧
    ∃ picks : List Nat, picks.length = n ∧ picks.Nodup ∧
      (∀ p ∈ picks, 1 ≤ p ∧ p ≤ 255) ∧
      ∀ i < n, (outs.getD i []).length = 2 * secret.length ∧
        ∃ ys : List Nat, ys.length = secret.length ∧
          outs.getD i [] = (ys.map fun y => [picks.getD i 0, y]).flatten := by
  rw [encode] at he
  cases hp : pickXs n (List.replicate 256 false) r 0 fuel with
  | none => rw [hp] at he; cases he
  | some pr =>
    obtain ⟨picks, ctr⟩ := pr
    rw [hp] at he
    have houts : outs = encodeBody secret n k picks r ctr := by
      cases he
      rfl
    subst houts
    obtain ⟨hplen, hpnd, hpbd, _⟩ := pickXs_spec n _ 0 fuel picks ctr (by simp) hp
    rw [encodeBody_streams n k picks r secret ctr]
    refine ⟨by simp, picks, hplen, hpnd, hpbd, ?_⟩
    intro i hin
    have hpi_mem : picks.getD i 0 ∈ picks :=
      getD_mem_of_lt picks i 0 (by omega)
    have hpi_lt : picks.getD i 0 < 256 := by
      have := hpbd _ hpi_mem
      omega
    have hgd := getD_map_range n i
      (fun j => streamFor (GF256elt.ofNat (picks.getD j 0)) (polysOf secret k r ctr)) [] hin
    rw [hgd]
    constructor
    · rw [streamFor_length, polysOf_length]
    · refine ⟨(polysOf secret k r ctr).map
        (fun P => (hornerEval P (GF256elt.ofNat (picks.getD i 0))).val),
        by rw [List.length_map, polysOf_length], ?_⟩
      have hv : (GF256elt.ofNat (picks.getD i 0)).val = picks.getD i 0 :=
        Nat.mod_eq_of_lt hpi_lt
      show ((polysOf secret k r ctr).map fun P =>
          [(GF256elt.ofNat (picks.getD i 0)).val,
            (hornerEval P (GF256elt.ofNat (picks.getD i 0))).val]).flatten = _
      rw [List.map_map]
      congr 1
      apply List.map_congr_left
      intro P _
      show [(GF256elt.ofNat (picks.getD i 0)).val,
        (hornerEval P (GF256elt.ofNat (picks.getD i 0))).val] = _
      rw [hv]
      rfl

theorem c8_witness :
    ([[1, 74, 1, 106], [2, 76, 2, 111]] : List (List Nat)).length = 2 ∧
    ∃ picks : List Nat, picks.length = 2 ∧ picks.Nodup ∧
      (∀ p ∈ picks, 1 ≤ p ∧ p ≤ 255) ∧
      ∀ i < 2, ((([[1, 74, 1, 106], [2, 76, 2, 111]] : List (List Nat))).getD i []).length
          = 2 * ([72, 105] : List Nat).length ∧
        ∃ ys : List Nat, ys.length = ([72, 105] : List Nat).length ∧
          (([[1, 74, 1, 106], [2, 76, 2, 111]] : List (List Nat))).getD i []
            = (ys.map fun y => [picks.getD i 0, y]).flatten :=
  c8_share_shape [72, 105] 2 2 (fun i => i) 4 [[1, 74, 1, 106], [2, 76, 2, 111]] (by decide)

/-- C1: the split/reconstruct round trip: a successful `encode` of any
byte sequence into N shares with threshold 2 ≤ K ≤ N ≤ 255, followed by
`decode` on any K-element subset of the share streams, returns exactly the
original bytes. -/
theorem c1_roundtrip (secret : List Nat) (hbytes : ∀ b ∈ secret, b < 256)
    (n k : Nat) (r : Nat → Nat) (fuel : Nat) (h2 : 2 ≤ k) (hkn : k ≤ n) (hn : n ≤ 255)
    (outs : List (List Nat)) (he : encode secret n k r fuel = some outs)
    (idxs : List Nat) (hlen : idxs.length = k) (hnd : idxs.Nodup)
    (hidx : ∀ i ∈ idxs, i < n) :
    decode (idxs.map fun i => outs.getD i []) (secret.length + 1) = .ok secret := by
  rw [encode] at he
  cases hp : pickXs n (List.replicate 256 false) r 0 fuel with
  | none => rw [hp] at he; cases he
  | some pr =>
    obtain ⟨picks, ctr⟩ := pr
    rw [hp] at he
    have houts : outs = encodeBody secret n k picks r ctr := by
      cases he
      rfl
    subst houts
    obtain ⟨hplen, hpnd, hpbd, _⟩ := pickXs_spec n _ 0 fuel picks ctr (by simp) hp
    rw [encodeBody_streams n k picks r secret ctr]
    have hstreams : (idxs.map fun i => ((List.range n).map fun j =>
        streamFor (GF256elt.ofNat (picks.getD j 0)) (polysOf secret k r ctr)).getD i [])
        = (idxs.map fun i => GF256elt.ofNat (picks.getD i 0)).map
            (fun x => streamFor x (polysOf secret k r ctr)) := by
      rw [List.map_map]
      apply List.map_congr_left
      intro i hi
      rw [getD_map_range n i _ [] (hidx i hi)]
      rfl
    rw [hstreams]
    have hvals : ∀ i ∈ idxs, (GF256elt.ofNat (picks.getD i 0)).val = picks.getD i 0 := by
      intro i hi
      have hmem : picks.getD i 0 ∈ picks :=
        getD_mem_of_lt picks i 0 (by rw [hplen]; exact hidx i hi)
      exact Nat.mod_eq_of_lt (by have := hpbd _ hmem; omega)
    have hxsnd : (idxs.map fun i => GF256elt.ofNat (picks.getD i 0)).Nodup := by
      refine List.Nodup.map_on ?_ hnd
      intro i hiM j hjM hfe
      have hi' : i < picks.length := by rw [hplen]; exact hidx i hiM
      have hj' : j < picks.length := by rw [hplen]; exact hidx j hjM
      have hv : picks.getD i 0 = picks.getD j 0 := by
        rw [← hvals i hiM, ← hvals j hjM, hfe]
      rw [List.getD_eq_getElem?_getD, List.getElem?_eq_getElem hi',
        List.getD_eq_getElem?_getD, List.getElem?_eq_getElem hj'] at hv
      simp only [Option.getD_some] at hv
      exact (hpnd.getElem_inj_iff).mp hv
    have hxne : (idxs.map fun i => GF256elt.ofNat (picks.getD i 0)) ≠ [] := by
      intro h
      have := List.map_eq_nil_iff.mp h
      rw [this] at hlen
      simp at hlen
      omega
    have hxlen : (idxs.map fun i => GF256elt.ofNat (picks.getD i 0)).length = k := by
      rw [List.length_map, hlen]
    have hP : ∀ P ∈ polysOf secret k r ctr,
        P ≠ [] ∧ P.length ≤ (idxs.map fun i => GF256elt.ofNat (picks.getD i 0)).length := by
      intro P hPm
      have hsh := polysOf_shape k (by omega) r secret ctr P hPm
      constructor
      · intro hP0
        rw [hP0] at hsh
        simp at hsh
        omega
      · rw [hxlen, hsh]
    have hd := decode_streams (idxs.map fun i => GF256elt.ofNat (picks.getD i 0))
      hxsnd hxne (polysOf secret k r ctr) hP []
    rw [polysOf_length] at hd
    rw [decode, hd, List.nil_append, polysOf_consts k r secret hbytes ctr]

theorem c1_witness :
    decode (([0, 1] : List Nat).map fun i =>
        ([[1, 74, 1, 106], [2, 76, 2, 111]] : List (List Nat)).getD i []) 3
      = .ok [72, 105] :=
  c1_roundtrip [72, 105] (by decide) 2 2 (fun i => i) 4 (by decide) (by decide) (by decide)
    [[1, 74, 1, 106], [2, 76, 2, 111]] (by decide) [0, 1] (by decide) (by decide) (by decide)

/-- C2 counterexample: when the FIRST stream reports end-of-stream while
another stream still has data, `decode` does not fail: the `if 0 != i`
guard (PySSSS.py line 120) treats EOF on stream 0 as normal termination,
and decoding ends successfully. -/
theorem c2_counterexample : decode [[], [1, 1]] 1 = .ok [] := rfl

/-- C2 (amended): when a read round finds stream `i` exhausted while every
other stream still has data (`i` the strictly shortest stream), `decode`
fails with the `Unexpected EOF while reading key i` error for every
position `i ≠ 0` of the diverging stream; when the diverging stream is the
first one (`i = 0`), `decode` instead completes successfully with
truncated output. -/
theorem c2_amended (ss : List (GF256elt × List GF256elt)) (i : Nat)
    (hi : i < ss.length) (hnd : (ss.map Prod.fst).Nodup)
    (hmin : ∀ j < ss.length, j ≠ i →
      (ss.getD i ((0 : GF256elt), [])).2.length
        < (ss.getD j ((0 : GF256elt), [])).2.length)
    (fuel : Nat) (hfuel : (ss.getD i ((0 : GF256elt), [])).2.length < fuel) :
    (i ≠ 0 → decode (ss.map fun s => pairStream s.1 s.2) fuel
        = .error (.unexpectedEOF i)) ∧
    (i = 0 → ∃ out, decode (ss.map fun s => pairStream s.1 s.2) fuel = .ok out) :=
  decode_mismatch ((ss.getD i ((0 : GF256elt), [])).2.length) ss i hi hnd rfl hmin
    fuel [] hfuel

theorem c2_witness :
    decode ([(GF256elt.ofNat 1, [GF256elt.ofNat 1]), (GF256elt.ofNat 2, [])].map
        fun s => pairStream s.1 s.2) 1
      = .error (.unexpectedEOF 1) :=
  (c2_amended [(GF256elt.ofNat 1, [GF256elt.ofNat 1]), (GF256elt.ofNat 2, [])] 1
    (by decide) (by decide) (by decide) 1 (by decide)).1 (by decide)

end PyGF
